import Mathlib

/-
Verification of the eww reactive scope graph (`crates/eww/src/new_state_stuff.rs`)
and the yuck configuration assembly (`crates/yuck/src/config/config.rs`).

The Rust code is shallowly embedded:
  * `VarName`, `AttrName` and `DynVal` are newtypes over strings in the source,
    so they are modelled as `String`.
  * Rust `HashMap`s are modelled as association lists where `insert` prepends
    and `get` returns the first (most recently inserted) match — this gives
    exactly the observable insert-replaces-previous semantics of `HashMap`.
  * The petgraph `DiGraph` is modelled as a list of node weights (a node index
    is a position in that list, matching petgraph's stable indices in the
    absence of removals, which never happen in this code) together with a list
    of `(from, to, weight)` edges in insertion order.
  * Fallible Rust functions returning `anyhow::Result` become `Except String`
    (or `Except RegErr` where a `.unwrap()` panic must be distinguished from a
    returned error); `&mut self` methods return the updated tree explicitly.
  * The expression type `SimplExpr` lives in the external `simplexpr` crate,
    which is not part of this repository's sources; it is modelled from the
    spec (see `SimplExpr` below).
-/

/-- Association-list environment standing in for Rust's `HashMap<VarName, DynVal>`
(and `HashMap<AttrName, _>` etc.).  `insert` prepends, `get` takes the first
match, so a later `insert` of the same key shadows the earlier one — the
observable behaviour of `HashMap::insert` replacing the previous value. -/
abbrev Env := List (String × String)

/-- Lookup of a key: first (most recent) matching entry, like `HashMap::get`. -/
def Env.get (e : Env) (k : String) : Option String :=
  (e.find? (fun p => p.1 = k)).map (fun p => p.2)

/-- Insertion, like `HashMap::insert` (for lookups, prepending is replacement). -/
def Env.insert (e : Env) (k v : String) : Env :=
  (k, v) :: e

/-- Membership test, like `HashMap::contains_key`. -/
def Env.containsKey (e : Env) (k : String) : Bool :=
  (e.get k).isSome

/-- Modelled from the spec: the expression language of the external `simplexpr`
crate (its sources are not in this repository).  Per the spec, §3, an
`Expression` is a "pure, side-effect-free AST over variable references;
evaluation requires every referenced name to be present in the supplied
environment, else fails", and §2 adds that it "exposes the set of variable
names it references".  A minimal AST with literals, variable references and
concatenation realises exactly that contract. -/
inductive SimplExpr
  | lit (value : String)
  | varRef (name : String)
  | concat (a b : SimplExpr)
deriving DecidableEq, Repr

/-- Source `SimplExpr::collect_var_refs`: the variable names referenced by the
expression (modelled from the spec together with `SimplExpr`). -/
def SimplExpr.collect_var_refs : SimplExpr → List String
  | .lit _ => []
  | .varRef name => [name]
  | .concat a b => a.collect_var_refs ++ b.collect_var_refs

/-- Source `SimplExpr::eval`: evaluation against an environment, failing
exactly when a referenced variable is absent (modelled from the spec together
with `SimplExpr`). -/
def SimplExpr.eval : SimplExpr → Env → Option String
  | .lit value, _ => some value
  | .varRef name, env => env.get name
  | .concat a b, env => do pure ((← a.eval env) ++ (← b.eval env))

/-- Source `Listener`: the callback `f` is an opaque Rust closure whose
invocation only performs external (UI) side effects; the graph itself stores
and reads `needed_variables`.  Only that field is modelled. -/
structure Listener where
  needed_variables : List String
deriving DecidableEq, Repr

/-- Source `Scope`: local variable bindings, the per-variable listener
registry, and the scope's own node index in the graph. -/
structure Scope where
  data : Env
  listeners : List (String × List Listener)
  node_index : Nat
deriving DecidableEq, Repr

/-- Source `Scope::new`: initializes a scope *incompletely* — `node_index` is
the placeholder `NodeIndex::default()` (index 0) and is patched after the node
is inserted into the graph. -/
def Scope.new (data : Env) : Scope :=
  { data := data, listeners := [], node_index := 0 }

/-- Source `ScopeTreeEdge`. -/
inductive ScopeTreeEdge
  | Inherits (references : List String)
  | ProvidesAttribute (attr_name : String) (expression : SimplExpr)
deriving DecidableEq, Repr

/-- Source `ScopeTreeEdge::is_inherits_relation`. -/
def ScopeTreeEdge.is_inherits_relation : ScopeTreeEdge → Bool
  | .Inherits _ => true
  | .ProvidesAttribute _ _ => false

/-- Source `ScopeTree`: the petgraph `DiGraph<Scope, ScopeTreeEdge>` is a list
of node weights (index = position; nodes are never removed in this code, so
positions are stable, as petgraph indices are) plus edges in insertion
order. -/
structure ScopeTree where
  nodes : List Scope
  edges : List (Nat × Nat × ScopeTreeEdge)
  root_index : Nat
deriving DecidableEq, Repr

/-- Helper: apply `f` to the element at position `i` (used to model
`node_weight_mut`). -/
def setAt (f : Scope → Scope) : List Scope → Nat → List Scope
  | [], _ => []
  | s :: rest, 0 => f s :: rest
  | s :: rest, n + 1 => s :: setAt f rest n

/-- Source `ScopeTree::value_at` (`graph.node_weight`). -/
def ScopeTree.value_at (t : ScopeTree) (index : Nat) : Option Scope :=
  t.nodes[index]?

/-- Source `graph.add_node`: append the weight, returning its fresh index. -/
def ScopeTree.addNode (t : ScopeTree) (s : Scope) : ScopeTree × Nat :=
  ({ t with nodes := t.nodes ++ [s] }, t.nodes.length)

/-- Source `ScopeTree::add_edge` (`graph.add_edge` appends to the edge list). -/
def ScopeTree.add_edge (t : ScopeTree) (src dst : Nat) (edge : ScopeTreeEdge) : ScopeTree :=
  { t with edges := t.edges ++ [(src, dst, edge)] }

/-- Source `ScopeTree::from_global_vars`: add the root node (with the
placeholder index from `Scope`'s construction), then patch its `node_index` to
the real root index. -/
def ScopeTree.from_global_vars (vars : Env) : ScopeTree :=
  let t0 : ScopeTree := { nodes := [], edges := [], root_index := 0 }
  let (t1, root_index) := t0.addNode { data := vars, listeners := [], node_index := 0 }
  let t2 := { t1 with nodes := setAt (fun s => { s with node_index := root_index }) t1.nodes root_index }
  { t2 with root_index := root_index }

/-- Source `ScopeTree::add_scope`: insert a `Scope::new` node, add the
`Inherits` edge to the parent when one is given, then patch the new scope's
`node_index` to its real index. -/
def ScopeTree.add_scope (t : ScopeTree) (parent_scope : Option Nat) (scope_variables : Env) :
    ScopeTree × Nat :=
  let scope := Scope.new scope_variables
  let (t1, new_index) := t.addNode scope
  let t2 := match parent_scope with
    | some parent => t1.add_edge new_index parent (.Inherits [])
    | none => t1
  let t3 := { t2 with nodes := setAt (fun s => { s with node_index := new_index }) t2.nodes new_index }
  (t3, new_index)

/-- Source `ScopeTree::parent_scope_of` / `find_neighbor(index, Outgoing,
is_inherits_relation)`: the target of an outgoing `Inherits` edge.  In every
reachable state at most one such edge exists (theorem below), so taking the
first one in the edge list coincides with petgraph's neighbor iteration. -/
def ScopeTree.parent_scope_of (t : ScopeTree) (index : Nat) : Option Nat :=
  (t.edges.find? (fun e => e.1 = index && e.2.2.is_inherits_relation)).map (fun e => e.2.1)

/-- Source `ScopeTree::find_available_scope_where`, with an explicit fuel
bound on the recursion depth.  The Rust function recurses without a bound;
on every reachable state the `Inherits` relation strictly decreases the node
index (theorem below), so any fuel above the walked scope's index — in
particular `nodes.length`, used by the wrapper — makes the model agree with
the unbounded recursion. -/
def findAvailableScopeAux (t : ScopeTree) (f : Scope → Bool) : Nat → Nat → Option Nat
  | scope_index, 0 =>
    match t.value_at scope_index with
    | none => none
    | some content => if f content then some scope_index else none
  | scope_index, fuel + 1 =>
    match t.value_at scope_index with
    | none => none
    | some content =>
      if f content then some scope_index
      else
        match t.parent_scope_of scope_index with
        | some parent => findAvailableScopeAux t f parent fuel
        | none => none

/-- Source `ScopeTree::find_available_scope_where` (wrapper at full fuel). -/
def ScopeTree.find_available_scope_where (t : ScopeTree) (scope_index : Nat) (f : Scope → Bool) :
    Option Nat :=
  findAvailableScopeAux t f scope_index t.nodes.length

/-- Source `ScopeTree::find_scope_with_variable`. -/
def ScopeTree.find_scope_with_variable (t : ScopeTree) (index : Nat) (var_name : String) :
    Option Nat :=
  t.find_available_scope_where index (fun scope => scope.data.containsKey var_name)

/-- Source `ScopeTree::lookup_variable_in_scope`.  The Rust code ends in
`.map(|x| x.data.get(var_name).unwrap())`; the found scope always contains the
key, so binding through `Env.get` is observably identical. -/
def ScopeTree.lookup_variable_in_scope (t : ScopeTree) (index : Nat) (var_name : String) :
    Option String :=
  (t.find_scope_with_variable index var_name).bind fun scope_index =>
    (t.value_at scope_index).bind fun x => x.data.get var_name

/-- Error outcome of `register_new_scope`: either an `anyhow` error returned
with `?` (carrying its message), or the panic of the `.unwrap()` on the
evaluation result. -/
inductive RegErr
  | unresolved (msg : String)
  | panicked
deriving DecidableEq, Repr

/-- Resolution of one attribute's variable references from the calling scope
(the `needed_vars` computation inside `register_new_scope`): each reference is
looked up via `lookup_variable_in_scope` and collected into an environment;
the first missing one aborts with the source's error message. -/
def lookupAll (t : ScopeTree) (calling_scope : Nat) : List String → Except String Env
  | [] => .ok []
  | var_name :: rest =>
    match t.lookup_variable_in_scope calling_scope var_name with
    | none => .error s!"Could not find variable {var_name} in scope"
    | some value =>
      match lookupAll t calling_scope rest with
      | .error e => .error e
      | .ok env => .ok (env.insert var_name value)

/-- Validation/evaluation phase of `register_new_scope` (the first `for` loop):
resolve every reference of every attribute, evaluate the attribute, and
accumulate `scope_variables`; `eval(..).unwrap()` panicking is `RegErr.panicked`. -/
def registerPhase1 (t : ScopeTree) (calling_scope : Nat) :
    List (String × SimplExpr) → Env → Except RegErr Env
  | [], acc => .ok acc
  | (attr_name, attr_value) :: rest, acc =>
    match lookupAll t calling_scope attr_value.collect_var_refs with
    | .error msg => .error (.unresolved msg)
    | .ok needed_vars =>
      match attr_value.eval needed_vars with
      | none => .error .panicked
      | some current_value => registerPhase1 t calling_scope rest (acc.insert attr_name current_value)

/-- Source `ScopeTree::register_new_scope`: validate and evaluate every
attribute first (no mutation), then commit — `add_scope` plus one
`ProvidesAttribute` edge per attribute from the calling scope to the new one,
carrying the original expression.  The updated tree is returned alongside the
result to mirror `&mut self`. -/
def ScopeTree.register_new_scope (t : ScopeTree) (parent_scope : Option Nat)
    (calling_scope : Nat) (attributes : List (String × SimplExpr)) :
    ScopeTree × Except RegErr Nat :=
  match registerPhase1 t calling_scope attributes [] with
  | .error e => (t, .error e)
  | .ok scope_variables =>
    let (t1, new_scope_index) := t.add_scope parent_scope scope_variables
    let t2 := attributes.foldl
      (fun acc p => acc.add_edge calling_scope new_scope_index (.ProvidesAttribute p.1 p.2)) t1
    (t2, .ok new_scope_index)

/-- Edge list of the `Inherits` edge added by `add_scope` for a given parent
argument and fresh node index. -/
def inhEdges (parent : Option Nat) (n : Nat) : List (Nat × Nat × ScopeTreeEdge) :=
  match parent with
  | some p => [(n, p, .Inherits [])]
  | none => []

/-- Number of outgoing `Inherits` edges of node `i` in an edge list. -/
def inheritsFrom (es : List (Nat × Nat × ScopeTreeEdge)) (i : Nat) : Nat :=
  (es.filter (fun e => e.1 = i && e.2.2.is_inherits_relation)).length

/-- Number of outgoing `Inherits` edges of scope `i` in the graph. -/
def outgoingInheritsCount (t : ScopeTree) (i : Nat) : Nat :=
  inheritsFrom t.edges i

/-- Ancestor chain of a scope: the scope followed by the scopes reached by
repeatedly applying `parent_scope_of`, with a fuel bound on the number of
steps. -/
def parentChainAux (t : ScopeTree) : Nat → Nat → List Nat
  | idx, 0 => [idx]
  | idx, fuel + 1 =>
    idx :: (match t.parent_scope_of idx with
      | none => []
      | some p => parentChainAux t p fuel)

/-- Ancestor chain of a scope at full fuel (enough on every reachable state,
see the fuel-stability theorems). -/
def ScopeTree.ancestorChain (t : ScopeTree) (index : Nat) : List Nat :=
  parentChainAux t index t.nodes.length

/-- Validity of an optional parent argument: a `Some` index must denote an
existing node (petgraph's `add_edge` panics otherwise, so no reachable,
non-panicking execution passes an out-of-range parent). -/
def OkParent (t : ScopeTree) (parent : Option Nat) : Prop :=
  ∀ p, parent = some p → p < t.nodes.length

/-- Graph states reachable from `from_global_vars` by any sequence of
`add_scope` and `register_new_scope` calls (with in-range parent and calling
indices, as petgraph panics on out-of-range indices).  A failing
`register_new_scope` returns the unchanged tree, so failing calls are covered
by the same constructor. -/
inductive Reachable : ScopeTree → Prop
  | root (vars : Env) : Reachable (ScopeTree.from_global_vars vars)
  | add (t : ScopeTree) (parent : Option Nat) (vars : Env) :
      Reachable t → OkParent t parent → Reachable (t.add_scope parent vars).1
  | register (t : ScopeTree) (parent : Option Nat) (calling : Nat)
      (attrs : List (String × SimplExpr)) :
      Reachable t → OkParent t parent → calling < t.nodes.length →
      Reachable (t.register_new_scope parent calling attrs).1

/-- Structural invariants maintained by every reachable graph state. -/
structure TreeInv (t : ScopeTree) : Prop where
  root_zero : t.root_index = 0
  nodes_nonempty : 0 < t.nodes.length
  edge_src_lt : ∀ e ∈ t.edges, e.1 < t.nodes.length
  edge_dst_lt : ∀ e ∈ t.edges, e.2.1 < t.nodes.length
  inherits_desc : ∀ e ∈ t.edges, e.2.2.is_inherits_relation = true → e.2.1 < e.1
  provides_asc : ∀ e ∈ t.edges, e.2.2.is_inherits_relation = false → e.1 < e.2.1
  inherits_unique : ∀ i, outgoingInheritsCount t i ≤ 1
  root_no_parent : outgoingInheritsCount t 0 = 0
  node_index_eq : ∀ i, (h : i < t.nodes.length) → t.nodes[i].node_index = i
  inherits_refs_nil : ∀ e ∈ t.edges, ∀ refs, e.2.2 = ScopeTreeEdge.Inherits refs → refs = []

/-- Whether the scope at index `i` exists and satisfies `f` (the predicate the
upward walk tests at each step). -/
def scopeSat (t : ScopeTree) (f : Scope → Bool) (i : Nat) : Bool :=
  match t.value_at i with
  | some s => f s
  | none => false

/-- Number of `ProvidesAttribute` edges from `src` to `dst`. -/
def providesCount (t : ScopeTree) (src dst : Nat) : Nat :=
  (t.edges.filter (fun e =>
    e.1 = src && e.2.1 = dst && !e.2.2.is_inherits_relation)).length

/-- Write `value` into the binding of `name` at scope `index'`: following the
commented-out source's `data.get_mut` pattern, only an existing entry is
updated and a missing binding is left untouched. -/
def writeVarAt (t : ScopeTree) (index' : Nat) (name value : String) : ScopeTree :=
  { t with nodes := setAt (fun scope =>
      { scope with data :=
          if (scope.data.get name).isSome
          then scope.data.insert name value
          else scope.data }) t.nodes index' }

/-- Binding-presence equivalence of two graph states: same number of scopes
and, at every index, the same set of locally bound names.  Updates that only
overwrite existing bindings preserve it. -/
def presEq (t1 t2 : ScopeTree) : Prop :=
  t1.nodes.length = t2.nodes.length ∧
  ∀ j w, (t1.value_at j).map (fun s => s.data.containsKey w) =
    (t2.value_at j).map (fun s => s.data.containsKey w)

/-- Modelled from the spec: one step of `notifyChanged`'s fan-out (spec §4.3
step 2; the update path exists in the source only as commented-out code at
`new_state_stuff.rs:211-271`, design commentary per the spec's §9) for a
single edge leaving the changed scope.  A `ProvidesAttribute` edge keyed on
the changed variable — its stored expression references it — is re-evaluated
against the refreshed environment, each reference resolved by upward lookup
from the source scope; the re-derived value is written into the dependent
scope's matching local binding, and propagation recurses from the dependent
scope on the attribute's name.  A re-evaluation whose references no longer
resolve performs no write (collect-errors policy: a failure does not halt the
pass).  A dependency edge (`Inherits` carrying a `references` set, which only
the unimplemented `register_listener` path would populate) keyed on the
variable propagates to its target without a write.  Listener callbacks
themselves are opaque external side effects with no graph mutation and do not
appear in the state model. -/
def notifyEdge (recurse : ScopeTree → Nat → String → ScopeTree) (scope : Nat)
    (var_name : String) (acc : ScopeTree) (e : Nat × Nat × ScopeTreeEdge) : ScopeTree :=
  if e.1 = scope then
    match e.2.2 with
    | .ProvidesAttribute attr_name expression =>
      if var_name ∈ expression.collect_var_refs then
        match lookupAll acc scope expression.collect_var_refs with
        | .ok env =>
          match expression.eval env with
          | some value => recurse (writeVarAt acc e.2.1 attr_name value) e.2.1 attr_name
          | none => acc
        | .error _ => acc
      else acc
    | .Inherits references =>
      if var_name ∈ references then recurse acc e.2.1 var_name else acc
  else acc

/-- Modelled from the spec: `notifyChanged` (spec §4.3): propagate a change of
`var_name` at `scope` through every edge keyed on it, in edge order,
re-deriving dependent scopes and recursing (see `notifyEdge`).  The `fuel`
bound on the recursion depth is a modelling artifact: on every reachable state
each `ProvidesAttribute` edge points to a strictly larger node index and every
dependency `references` set is empty (theorems below), so the depth stays
below `nodes.length`, the fuel the wrapper `update_value` supplies. -/
def notifyChanged : Nat → ScopeTree → Nat → String → ScopeTree
  | 0, t, _, _ => t
  | fuel + 1, t, scope, var_name =>
    t.edges.foldl (notifyEdge (notifyChanged fuel) scope var_name) t

/-- Modelled from the spec: `updateValue` (spec §4.3), whose implementation in
the source is only commented-out code: resolve the *defining* scope of the
variable via upward lookup from the given scope (`find_scope_with_variable`),
failing when no scope in the chain binds it; mutate the binding there (the
commented-out code writes through `data.get_mut`, updating only the existing
entry); then invoke `notifyChanged` from that defining scope, which fans the
change out to dependent scopes (re-deriving their bindings) and listeners. -/
def update_value (t : ScopeTree) (index : Nat) (var_name : String) (value : String) :
    ScopeTree × Except String Unit :=
  match t.find_scope_with_variable index var_name with
  | none => (t, .error "Variable not found in scope")
  | some index' =>
    (notifyChanged t.nodes.length (writeVarAt t index' var_name value) index' var_name,
     .ok ())

/-- Source `VarDefinition` (`var_definition.rs` is not among the sources;
modelled from the spec: `config.rs` examines only its `name`, the rest of the
parsed definition is opaque content). -/
structure VarDefinition where
  name : String
  body : String
deriving DecidableEq, Repr

/-- Source `WidgetDefinition` (same modelling note as `VarDefinition`). -/
structure WidgetDefinition where
  name : String
  body : String
deriving DecidableEq, Repr

/-- Source `WindowDefinition` (same modelling note as `VarDefinition`). -/
structure WindowDefinition where
  name : String
  body : String
deriving DecidableEq, Repr

/-- Source `ScriptVarDefinition`: a `Poll` or `Tail` script variable (same
modelling note as `VarDefinition`). -/
inductive ScriptVarDefinition
  | poll (name : String) (body : String)
  | tail (name : String) (body : String)
deriving DecidableEq, Repr

/-- Source `ScriptVarDefinition::name`. -/
def ScriptVarDefinition.name : ScriptVarDefinition → String
  | .poll n _ => n
  | .tail n _ => n

/-- Source `Include` (the `path_span` field is source-location metadata and is
not examined by the modelled code paths). -/
structure Include where
  path : String
deriving DecidableEq, Repr

/-- Source `TopLevel` (`config.rs`). -/
inductive TopLevel
  | Include (inc : Include)
  | VarDefinition (x : VarDefinition)
  | ScriptVarDefinition (x : ScriptVarDefinition)
  | WidgetDefinition (x : WidgetDefinition)
  | WindowDefinition (x : WindowDefinition)
deriving DecidableEq, Repr

/-- Whether a toplevel element is an include directive. -/
def TopLevel.isInclude : TopLevel → Bool
  | .Include _ => true
  | _ => false

/-- Modelled from the spec: the yuck AST (`parser/ast.rs`) and the per-element
`from_tail` parsers (`widget_definition.rs`, `window_definition.rs`, ...) are
not among the sources.  `TopLevel::from_ast` (which is in `config.rs`)
dispatches on the element's name symbol and delegates to those parsers,
returning the parsed `TopLevel` or the first parse error (including
`UnknownToplevel`).  An `Ast` element is therefore abstracted to its parse
outcome. -/
inductive Ast
  | ok (t : TopLevel)
  | bad (err : String)
deriving DecidableEq, Repr

/-- Source `TopLevel::from_ast` (see the modelling note on `Ast`). -/
def TopLevel.from_ast : Ast → Except String TopLevel
  | .ok t => .ok t
  | .bad e => .error e

/-- Lookup in a name-keyed map (same association-list model as `Env`). -/
def mapGet {α : Type} (m : List (String × α)) (k : String) : Option α :=
  (m.find? (fun p => p.1 = k)).map (fun p => p.2)

/-- Insertion into a name-keyed map, replacing a previous binding of the same
name for lookup purposes (`HashMap::insert`). -/
def mapInsert {α : Type} (m : List (String × α)) (k : String) (v : α) : List (String × α) :=
  (k, v) :: m

/-- Source `Config` (`config.rs`): four name-keyed definition maps. -/
structure Config where
  widget_definitions : List (String × WidgetDefinition)
  window_definitions : List (String × WindowDefinition)
  var_definitions : List (String × VarDefinition)
  script_vars : List (String × ScriptVarDefinition)
deriving DecidableEq, Repr

/-- Source `FilesError` (`file_provider.rs` is not among the sources; the two
variants and their mapping in `append_toplevel` are visible in `config.rs`). -/
inductive FilesError
  | ioError
  | astError (err : String)
deriving DecidableEq, Repr

/-- Source `Config::append_toplevel`: insert each definition under its name
(silently replacing an earlier one), and splice included files by loading and
recursing.  `files` models the `YuckFiles` provider.  The `fuel` parameter
bounds include-nesting depth, a modelling artifact: the Rust recursion is
unbounded (a cyclic include would recurse forever), and on include-free input
no fuel is ever consumed. -/
def Config.append_toplevel (files : String → Except FilesError (List Ast)) :
    Nat → Config → TopLevel → Except String Config
  | _, config, .VarDefinition x =>
    .ok { config with var_definitions := mapInsert config.var_definitions x.name x }
  | _, config, .ScriptVarDefinition x =>
    .ok { config with script_vars := mapInsert config.script_vars x.name x }
  | _, config, .WidgetDefinition x =>
    .ok { config with widget_definitions := mapInsert config.widget_definitions x.name x }
  | _, config, .WindowDefinition x =>
    .ok { config with window_definitions := mapInsert config.window_definitions x.name x }
  | fuel, config, .Include inc =>
    match files inc.path with
    | .error .ioError => .error s!"Included file not found: {inc.path}"
    | .error (.astError x) => .error x
    | .ok toplevels =>
      match fuel with
      | 0 => .error "include nesting exceeded the modelling bound"
      | fuel + 1 =>
        toplevels.foldlM (fun config element => do
          Config.append_toplevel files fuel config (← TopLevel.from_ast element)) config

/-- Source `Config::generate`: start from the empty configuration and append
each toplevel element in order, aborting on the first element that fails to
parse or append. -/
def Config.generate (files : String → Except FilesError (List Ast)) (fuel : Nat)
    (elements : List Ast) : Except String Config :=
  elements.foldlM (fun config element => do
    Config.append_toplevel files fuel config (← TopLevel.from_ast element))
    { widget_definitions := [], window_definitions := [], var_definitions := [],
      script_vars := [] }

/-- Pure effect of one non-include toplevel element on the configuration (the
include case recurses through the file provider and is handled separately). -/
def applyToplevel (config : Config) : TopLevel → Config
  | .VarDefinition x =>
    { config with var_definitions := mapInsert config.var_definitions x.name x }
  | .ScriptVarDefinition x =>
    { config with script_vars := mapInsert config.script_vars x.name x }
  | .WidgetDefinition x =>
    { config with widget_definitions := mapInsert config.widget_definitions x.name x }
  | .WindowDefinition x =>
    { config with window_definitions := mapInsert config.window_definitions x.name x }
  | .Include _ => config

/-- Name-keyed view of a toplevel element as a variable definition. -/
def varKey : TopLevel → Option (String × VarDefinition)
  | .VarDefinition x => some (x.name, x)
  | _ => none

/-- Name-keyed view of a toplevel element as a script-variable definition. -/
def scriptVarKey : TopLevel → Option (String × ScriptVarDefinition)
  | .ScriptVarDefinition x => some (x.name, x)
  | _ => none

/-- Name-keyed view of a toplevel element as a widget definition. -/
def widgetKey : TopLevel → Option (String × WidgetDefinition)
  | .WidgetDefinition x => some (x.name, x)
  | _ => none

/-- Name-keyed view of a toplevel element as a window definition. -/
def windowKey : TopLevel → Option (String × WindowDefinition)
  | .WindowDefinition x => some (x.name, x)
  | _ => none

theorem setAt_snoc (f : Scope → Scope) (l : List Scope) (s : Scope) :
    setAt f (l ++ [s]) l.length = l ++ [f s] := by
  induction l with
  | nil => rfl
  | cons a l ih => simp [setAt, ih]

theorem from_global_vars_eq (vars : Env) :
    ScopeTree.from_global_vars vars =
      { nodes := [{ data := vars, listeners := [], node_index := 0 }],
        edges := [], root_index := 0 } := rfl

theorem add_scope_eq (t : ScopeTree) (parent : Option Nat) (vars : Env) :
    t.add_scope parent vars =
      ({ nodes := t.nodes ++ [{ data := vars, listeners := [], node_index := t.nodes.length }],
         edges := t.edges ++ inhEdges parent t.nodes.length,
         root_index := t.root_index }, t.nodes.length) := by
  cases parent <;>
    simp [ScopeTree.add_scope, ScopeTree.addNode, ScopeTree.add_edge, inhEdges, Scope.new,
      setAt_snoc]

theorem foldl_add_edge (c n : Nat) (attrs : List (String × SimplExpr)) (t0 : ScopeTree) :
    attrs.foldl (fun acc p => acc.add_edge c n (.ProvidesAttribute p.1 p.2)) t0 =
      { t0 with edges := t0.edges ++ attrs.map (fun p => (c, n, .ProvidesAttribute p.1 p.2)) } := by
  induction attrs generalizing t0 with
  | nil => simp
  | cons a l ih =>
    rw [List.foldl_cons, ih]
    simp [ScopeTree.add_edge]

theorem register_new_scope_ok (t : ScopeTree) (parent : Option Nat) (calling : Nat)
    (attrs : List (String × SimplExpr)) (env : Env)
    (h : registerPhase1 t calling attrs [] = .ok env) :
    t.register_new_scope parent calling attrs =
      ({ nodes := t.nodes ++ [{ data := env, listeners := [], node_index := t.nodes.length }],
         edges := t.edges ++ inhEdges parent t.nodes.length ++
           attrs.map (fun p => (calling, t.nodes.length, .ProvidesAttribute p.1 p.2)),
         root_index := t.root_index }, .ok t.nodes.length) := by
  unfold ScopeTree.register_new_scope
  rw [h]
  simp [add_scope_eq, foldl_add_edge, List.append_assoc]

theorem register_new_scope_err (t : ScopeTree) (parent : Option Nat) (calling : Nat)
    (attrs : List (String × SimplExpr)) (e : RegErr)
    (h : registerPhase1 t calling attrs [] = .error e) :
    t.register_new_scope parent calling attrs = (t, .error e) := by
  unfold ScopeTree.register_new_scope
  rw [h]

theorem inheritsFrom_append (a b : List (Nat × Nat × ScopeTreeEdge)) (i : Nat) :
    inheritsFrom (a ++ b) i = inheritsFrom a i + inheritsFrom b i := by
  simp [inheritsFrom, List.filter_append]

theorem inheritsFrom_zero_of_src_lt (es : List (Nat × Nat × ScopeTreeEdge)) (n : Nat)
    (h : ∀ e ∈ es, e.1 < n) : inheritsFrom es n = 0 := by
  rw [inheritsFrom, List.length_eq_zero, List.filter_eq_nil_iff]
  intro e he
  have := h e he
  simp only [Bool.and_eq_true, decide_eq_true_eq]
  rintro ⟨rfl, -⟩
  exact absurd this (lt_irrefl _)

theorem inheritsFrom_provides_map (attrs : List (String × SimplExpr)) (c n i : Nat) :
    inheritsFrom (attrs.map (fun p => (c, n, ScopeTreeEdge.ProvidesAttribute p.1 p.2))) i = 0 := by
  induction attrs with
  | nil => rfl
  | cons a l ih => simpa [inheritsFrom, ScopeTreeEdge.is_inherits_relation] using ih

theorem inheritsFrom_inhEdges_self (parent : Option Nat) (n : Nat) :
    inheritsFrom (inhEdges parent n) n ≤ 1 := by
  cases parent <;> simp [inhEdges, inheritsFrom, List.filter, ScopeTreeEdge.is_inherits_relation]

theorem inheritsFrom_inhEdges_other (parent : Option Nat) (n i : Nat) (h : i ≠ n) :
    inheritsFrom (inhEdges parent n) i = 0 := by
  cases parent <;> simp [inhEdges, inheritsFrom, List.filter, ScopeTreeEdge.is_inherits_relation, Ne.symm h]

theorem inheritsFrom_zero_of_provides (es : List (Nat × Nat × ScopeTreeEdge)) (i : Nat)
    (h : ∀ e ∈ es, e.2.2.is_inherits_relation = false) : inheritsFrom es i = 0 := by
  rw [inheritsFrom, List.length_eq_zero, List.filter_eq_nil_iff]
  intro e he
  simp only [Bool.and_eq_true, decide_eq_true_eq]
  rintro ⟨-, hcontra⟩
  rw [h e he] at hcontra
  exact Bool.false_ne_true hcontra

theorem treeInv_step (t : ScopeTree) (inv : TreeInv t) (parent : Option Nat)
    (hp : OkParent t parent) (data : Env) (pes : List (Nat × Nat × ScopeTreeEdge))
    (hsrc : ∀ e ∈ pes, e.1 < t.nodes.length)
    (hdst : ∀ e ∈ pes, e.2.1 = t.nodes.length)
    (hprov : ∀ e ∈ pes, e.2.2.is_inherits_relation = false) :
    TreeInv { nodes := t.nodes ++ [{ data := data, listeners := [], node_index := t.nodes.length }],
              edges := t.edges ++ inhEdges parent t.nodes.length ++ pes,
              root_index := t.root_index } := by
  have hn : 0 < t.nodes.length := inv.nodes_nonempty
  have hinh_src : ∀ e ∈ inhEdges parent t.nodes.length, e.1 = t.nodes.length := by
    intro e he
    cases hps : parent with
    | none => rw [hps] at he; simp [inhEdges] at he
    | some p => rw [hps] at he; simp [inhEdges] at he; rw [he]
  have hinh_dst : ∀ e ∈ inhEdges parent t.nodes.length, e.2.1 < t.nodes.length := by
    intro e he
    cases hps : parent with
    | none => rw [hps] at he; simp [inhEdges] at he
    | some p => rw [hps] at he; simp [inhEdges] at he; rw [he]; exact hp p hps
  have hinh_kind : ∀ e ∈ inhEdges parent t.nodes.length, e.2.2.is_inherits_relation = true := by
    intro e he
    cases hps : parent with
    | none => rw [hps] at he; simp [inhEdges] at he
    | some p => rw [hps] at he; simp [inhEdges] at he; rw [he]; rfl
  constructor
  · exact inv.root_zero
  · simp
  · intro e he
    simp only [List.mem_append] at he
    rcases he with (he | he) | he
    · exact lt_of_lt_of_le (inv.edge_src_lt e he) (by simp)
    · rw [hinh_src e he]; simp
    · exact lt_of_lt_of_le (lt_of_lt_of_le (hsrc e he) (Nat.le_succ _)) (by simp)
  · intro e he
    simp only [List.mem_append] at he
    rcases he with (he | he) | he
    · exact lt_of_lt_of_le (inv.edge_dst_lt e he) (by simp)
    · exact lt_of_lt_of_le (lt_of_lt_of_le (hinh_dst e he) (Nat.le_succ _)) (by simp)
    · rw [hdst e he]; simp
  · intro e he hkind
    simp only [List.mem_append] at he
    rcases he with (he | he) | he
    · exact inv.inherits_desc e he hkind
    · rw [hinh_src e he]; exact hinh_dst e he
    · rw [hprov e he] at hkind; exact absurd hkind (by simp)
  · intro e he hkind
    simp only [List.mem_append] at he
    rcases he with (he | he) | he
    · exact inv.provides_asc e he hkind
    · rw [hinh_kind e he] at hkind; exact absurd hkind (by simp)
    · rw [hdst e he]; exact hsrc e he
  · intro i
    show inheritsFrom _ i ≤ 1
    simp only [inheritsFrom_append]
    rw [inheritsFrom_zero_of_provides pes i hprov]
    by_cases hi : i = t.nodes.length
    · subst hi
      rw [inheritsFrom_zero_of_src_lt t.edges _ inv.edge_src_lt]
      simpa using inheritsFrom_inhEdges_self parent t.nodes.length
    · rw [inheritsFrom_inhEdges_other parent _ i hi]
      simpa using inv.inherits_unique i
  · show inheritsFrom _ 0 = 0
    simp only [inheritsFrom_append]
    rw [inheritsFrom_zero_of_provides pes 0 hprov,
      inheritsFrom_inhEdges_other parent _ 0 (by omega)]
    simpa using inv.root_no_parent
  · intro i h
    by_cases hi : i < t.nodes.length
    · rw [List.getElem_append_left hi]
      exact inv.node_index_eq i hi
    · have : i = t.nodes.length := by
        simp only [List.length_append, List.length_singleton] at h
        omega
      subst this
      simp
  · intro e he refs hrefs
    simp only [List.mem_append] at he
    rcases he with (he | he) | he
    · exact inv.inherits_refs_nil e he refs hrefs
    · cases hps : parent with
      | none => rw [hps] at he; simp [inhEdges] at he
      | some p =>
        rw [hps] at he
        simp only [inhEdges, List.mem_singleton] at he
        subst he
        injection hrefs with h1
        exact h1.symm
    · have h1 := hprov e he
      rw [hrefs] at h1
      simp [ScopeTreeEdge.is_inherits_relation] at h1

/-- Every reachable graph state satisfies the structural invariants. -/
theorem reachable_treeInv (t : ScopeTree) (ht : Reachable t) : TreeInv t := by
  induction ht with
  | root vars =>
    constructor
    · rfl
    · simp [from_global_vars_eq]
    · intro e he; simp [from_global_vars_eq] at he
    · intro e he; simp [from_global_vars_eq] at he
    · intro e he; simp [from_global_vars_eq] at he
    · intro e he; simp [from_global_vars_eq] at he
    · intro i; simp [from_global_vars_eq, outgoingInheritsCount, inheritsFrom]
    · rfl
    · intro i h
      simp only [from_global_vars_eq, List.length_singleton] at h
      have hi : i = 0 := by omega
      subst hi
      rfl
    · intro e he refs hrefs
      simp [from_global_vars_eq] at he
  | add t parent vars ht hp ih =>
    rw [add_scope_eq]
    have := treeInv_step t ih parent hp vars [] (by simp) (by simp) (by simp)
    simpa using this
  | register t parent calling attrs ht hp hc ih =>
    cases h : registerPhase1 t calling attrs [] with
    | error e =>
      rw [register_new_scope_err t parent calling attrs e h]
      exact ih
    | ok env =>
      rw [register_new_scope_ok t parent calling attrs env h]
      refine treeInv_step t ih parent hp env _ ?_ ?_ ?_
      · intro e he
        simp only [List.mem_map] at he
        obtain ⟨p, -, rfl⟩ := he
        exact hc
      · intro e he
        simp only [List.mem_map] at he
        obtain ⟨p, -, rfl⟩ := he
        rfl
      · intro e he
        simp only [List.mem_map] at he
        obtain ⟨p, -, rfl⟩ := he
        rfl

theorem parent_scope_of_mem (t : ScopeTree) (i p : Nat)
    (h : t.parent_scope_of i = some p) :
    ∃ e ∈ t.edges, e.1 = i ∧ e.2.1 = p ∧ e.2.2.is_inherits_relation = true := by
  unfold ScopeTree.parent_scope_of at h
  cases hf : t.edges.find? (fun e => e.1 = i && e.2.2.is_inherits_relation) with
  | none => rw [hf] at h; simp at h
  | some e =>
    rw [hf] at h
    simp only [Option.map_some', Option.some.injEq] at h
    have hmem := List.mem_of_find?_eq_some hf
    have hpred := List.find?_some hf
    simp only [Bool.and_eq_true, decide_eq_true_eq] at hpred
    exact ⟨e, hmem, hpred.1, h, hpred.2⟩

/-- On an invariant-satisfying state, walking to the parent strictly decreases
the node index (the `Inherits` edge added by `add_scope` always points from the
fresh, maximal index to an older node). -/
theorem parent_lt (t : ScopeTree) (inv : TreeInv t) (i p : Nat)
    (h : t.parent_scope_of i = some p) : p < i ∧ p < t.nodes.length := by
  obtain ⟨e, he, h1, h2, h3⟩ := parent_scope_of_mem t i p h
  subst h1
  subst h2
  exact ⟨inv.inherits_desc e he h3, inv.edge_dst_lt e he⟩

theorem findAux_none (t : ScopeTree) (f : Scope → Bool) (idx fuel : Nat)
    (hv : t.value_at idx = none) : findAvailableScopeAux t f idx fuel = none := by
  cases fuel <;> simp [findAvailableScopeAux, hv]

theorem findAux_hit (t : ScopeTree) (f : Scope → Bool) (idx fuel : Nat) (c : Scope)
    (hv : t.value_at idx = some c) (hf : f c = true) :
    findAvailableScopeAux t f idx fuel = some idx := by
  cases fuel <;> simp [findAvailableScopeAux, hv, hf]

theorem findAux_miss_no_parent (t : ScopeTree) (f : Scope → Bool) (idx fuel : Nat) (c : Scope)
    (hv : t.value_at idx = some c) (hf : f c = false) (hp : t.parent_scope_of idx = none) :
    findAvailableScopeAux t f idx fuel = none := by
  cases fuel <;> simp [findAvailableScopeAux, hv, hf, hp]

theorem findAux_miss_step (t : ScopeTree) (f : Scope → Bool) (idx fuel : Nat) (c : Scope)
    (p : Nat) (hv : t.value_at idx = some c) (hf : f c = false)
    (hp : t.parent_scope_of idx = some p) :
    findAvailableScopeAux t f idx (fuel + 1) = findAvailableScopeAux t f p fuel := by
  simp [findAvailableScopeAux, hv, hf, hp]

theorem findAux_out_of_range (t : ScopeTree) (f : Scope → Bool) (idx fuel : Nat)
    (h : t.nodes.length ≤ idx) : findAvailableScopeAux t f idx fuel = none := by
  have hv : t.value_at idx = none := by
    simp [ScopeTree.value_at, List.getElem?_eq_none h]
  exact findAux_none t f idx fuel hv

/-- Fuel-stability of the upward walk: on an invariant-satisfying state any
fuel above the starting index gives the same result, so the bounded model
computes exactly what the source's unbounded recursion computes (and that
recursion terminates within `idx + 1` visited scopes). -/
theorem findAux_fuel_stable (t : ScopeTree) (inv : TreeInv t) (f : Scope → Bool) :
    ∀ idx fuel fuel', idx < fuel → idx < fuel' →
      findAvailableScopeAux t f idx fuel = findAvailableScopeAux t f idx fuel' := by
  intro idx
  induction idx using Nat.strong_induction_on with
  | _ idx ih =>
    intro fuel fuel' h h'
    cases hv : t.value_at idx with
    | none => rw [findAux_none t f idx fuel hv, findAux_none t f idx fuel' hv]
    | some content =>
      cases hf : f content with
      | true => rw [findAux_hit t f idx fuel content hv hf, findAux_hit t f idx fuel' content hv hf]
      | false =>
        cases hp : t.parent_scope_of idx with
        | none =>
          rw [findAux_miss_no_parent t f idx fuel content hv hf hp,
            findAux_miss_no_parent t f idx fuel' content hv hf hp]
        | some parent =>
          obtain ⟨hlt, -⟩ := parent_lt t inv idx parent hp
          cases fuel with
          | zero => omega
          | succ f0 =>
            cases fuel' with
            | zero => omega
            | succ f1 =>
              rw [findAux_miss_step t f idx f0 content parent hv hf hp,
                findAux_miss_step t f idx f1 content parent hv hf hp]
              exact ih parent hlt f0 f1 (by omega) (by omega)

theorem parentChainAux_ne_nil (t : ScopeTree) (idx fuel : Nat) :
    parentChainAux t idx fuel ≠ [] := by
  cases fuel <;> simp [parentChainAux]

theorem parentChainAux_head? (t : ScopeTree) (idx fuel : Nat) :
    (parentChainAux t idx fuel).head? = some idx := by
  cases fuel <;> rfl

theorem parentChainAux_zero (t : ScopeTree) (idx : Nat) :
    parentChainAux t idx 0 = [idx] := rfl

theorem parentChainAux_succ_none (t : ScopeTree) (idx fuel : Nat)
    (hp : t.parent_scope_of idx = none) :
    parentChainAux t idx (fuel + 1) = [idx] := by
  simp [parentChainAux, hp]

theorem parentChainAux_succ_some (t : ScopeTree) (idx fuel p : Nat)
    (hp : t.parent_scope_of idx = some p) :
    parentChainAux t idx (fuel + 1) = idx :: parentChainAux t p fuel := by
  simp [parentChainAux, hp]

/-- Every element of the ancestor chain is bounded by the starting index. -/
theorem parentChainAux_le (t : ScopeTree) (inv : TreeInv t) :
    ∀ idx fuel j, j ∈ parentChainAux t idx fuel → j ≤ idx := by
  intro idx
  induction idx using Nat.strong_induction_on with
  | _ idx ih =>
    intro fuel j hj
    cases fuel with
    | zero => rw [parentChainAux_zero] at hj; simp at hj; omega
    | succ f0 =>
      cases hp : t.parent_scope_of idx with
      | none => rw [parentChainAux_succ_none t idx f0 hp] at hj; simp at hj; omega
      | some parent =>
        rw [parentChainAux_succ_some t idx f0 parent hp] at hj
        simp only [List.mem_cons] at hj
        rcases hj with rfl | hj
        · exact le_refl _
        · obtain ⟨hlt, -⟩ := parent_lt t inv idx parent hp
          exact le_trans (ih parent hlt f0 j hj) (le_of_lt hlt)

/-- The ancestor chain is strictly decreasing, hence never revisits a scope. -/
theorem parentChainAux_chain' (t : ScopeTree) (inv : TreeInv t) :
    ∀ idx fuel, List.Chain' (fun a b => b < a) (parentChainAux t idx fuel) := by
  intro idx
  induction idx using Nat.strong_induction_on with
  | _ idx ih =>
    intro fuel
    cases fuel with
    | zero => rw [parentChainAux_zero]; simp
    | succ f0 =>
      cases hp : t.parent_scope_of idx with
      | none => rw [parentChainAux_succ_none t idx f0 hp]; simp
      | some parent =>
        obtain ⟨hlt, -⟩ := parent_lt t inv idx parent hp
        rw [parentChainAux_succ_some t idx f0 parent hp]
        refine List.chain'_cons'.mpr ⟨?_, ih parent hlt f0⟩
        intro y hy
        rw [parentChainAux_head? t parent f0] at hy
        cases hy
        exact hlt

theorem parentChainAux_nodup (t : ScopeTree) (inv : TreeInv t) (idx fuel : Nat) :
    (parentChainAux t idx fuel).Nodup := by
  have h := parentChainAux_chain' t inv idx fuel
  rw [List.chain'_iff_pairwise] at h
  exact h.imp (fun hab => Nat.ne_of_gt hab)

/-- With fuel at least the starting index, the chain ends at a scope with no
parent: the upward walk runs to completion without hitting the fuel bound. -/
theorem parentChainAux_last_no_parent (t : ScopeTree) (inv : TreeInv t) :
    ∀ idx fuel, idx ≤ fuel →
      ∃ l, (parentChainAux t idx fuel).getLast? = some l ∧ t.parent_scope_of l = none := by
  intro idx
  induction idx using Nat.strong_induction_on with
  | _ idx ih =>
    intro fuel hfuel
    cases hp : t.parent_scope_of idx with
    | none =>
      refine ⟨idx, ?_, hp⟩
      cases fuel with
      | zero => rfl
      | succ f0 => rw [parentChainAux_succ_none t idx f0 hp]; rfl
    | some parent =>
      obtain ⟨hlt, -⟩ := parent_lt t inv idx parent hp
      cases fuel with
      | zero => omega
      | succ f0 =>
        obtain ⟨l, hl1, hl2⟩ := ih parent hlt f0 (by omega)
        refine ⟨l, ?_, hl2⟩
        rw [parentChainAux_succ_some t idx f0 parent hp]
        obtain ⟨y, ys, hyys⟩ := List.exists_cons_of_ne_nil (parentChainAux_ne_nil t parent f0)
        rw [hyys, List.getLast?_cons_cons, ← hyys, hl1]

theorem parent_none_of_invalid (t : ScopeTree) (inv : TreeInv t) (idx : Nat)
    (hv : t.value_at idx = none) : t.parent_scope_of idx = none := by
  cases hp : t.parent_scope_of idx with
  | none => rfl
  | some p =>
    obtain ⟨e, he, h1, -, -⟩ := parent_scope_of_mem t idx p hp
    have hlt := inv.edge_src_lt e he
    rw [h1] at hlt
    rw [ScopeTree.value_at, List.getElem?_eq_none_iff] at hv
    omega

/-- The upward walk is exactly a scan of the ancestor chain for the first
scope satisfying the predicate. -/
theorem findAux_eq_chain_find (t : ScopeTree) (inv : TreeInv t) (f : Scope → Bool) :
    ∀ idx fuel,
      findAvailableScopeAux t f idx fuel = (parentChainAux t idx fuel).find? (scopeSat t f) := by
  intro idx
  induction idx using Nat.strong_induction_on with
  | _ idx ih =>
    intro fuel
    cases hv : t.value_at idx with
    | none =>
      have hp := parent_none_of_invalid t inv idx hv
      have hsat : scopeSat t f idx = false := by simp [scopeSat, hv]
      rw [findAux_none t f idx fuel hv]
      cases fuel with
      | zero => rw [parentChainAux_zero]; simp [List.find?, hsat]
      | succ f0 => rw [parentChainAux_succ_none t idx f0 hp]; simp [List.find?, hsat]
    | some content =>
      cases hf : f content with
      | true =>
        have hsat : scopeSat t f idx = true := by simp [scopeSat, hv, hf]
        rw [findAux_hit t f idx fuel content hv hf]
        cases fuel with
        | zero => rw [parentChainAux_zero]; simp [List.find?, hsat]
        | succ f0 =>
          cases hp : t.parent_scope_of idx with
          | none => rw [parentChainAux_succ_none t idx f0 hp]; simp [List.find?, hsat]
          | some p => rw [parentChainAux_succ_some t idx f0 p hp]; simp [List.find?, hsat]
      | false =>
        have hsat : scopeSat t f idx = false := by simp [scopeSat, hv, hf]
        cases hp : t.parent_scope_of idx with
        | none =>
          rw [findAux_miss_no_parent t f idx fuel content hv hf hp]
          cases fuel with
          | zero => rw [parentChainAux_zero]; simp [List.find?, hsat]
          | succ f0 => rw [parentChainAux_succ_none t idx f0 hp]; simp [List.find?, hsat]
        | some p =>
          obtain ⟨hlt, -⟩ := parent_lt t inv idx p hp
          cases fuel with
          | zero =>
            rw [parentChainAux_zero]
            simp only [findAvailableScopeAux, hv, hf, hp]
            simp [List.find?, hsat]
          | succ f0 =>
            rw [findAux_miss_step t f idx f0 content p hv hf hp,
              parentChainAux_succ_some t idx f0 p hp]
            simp only [List.find?, hsat]
            exact ih p hlt f0

theorem get_insert_self (e : Env) (k v : String) : (e.insert k v).get k = some v := by
  simp [Env.insert, Env.get]

theorem get_insert_ne (e : Env) (k v w : String) (h : w ≠ k) :
    (e.insert k v).get w = e.get w := by
  simp [Env.insert, Env.get, List.find?, Ne.symm h]

/-- Evaluation succeeds whenever every referenced variable is present in the
environment (the contract of the spec's expression capability). -/
theorem eval_isSome_of_refs (e : SimplExpr) (env : Env)
    (h : ∀ v ∈ e.collect_var_refs, (env.get v).isSome) : (e.eval env).isSome := by
  induction e with
  | lit value => simp [SimplExpr.eval]
  | varRef name =>
    simpa [SimplExpr.eval] using h name (by simp [SimplExpr.collect_var_refs])
  | concat a b iha ihb =>
    simp only [SimplExpr.collect_var_refs, List.mem_append] at h
    have ha := iha (fun v hv => h v (Or.inl hv))
    have hb := ihb (fun v hv => h v (Or.inr hv))
    obtain ⟨va, hva⟩ := Option.isSome_iff_exists.mp ha
    obtain ⟨vb, hvb⟩ := Option.isSome_iff_exists.mp hb
    simp [SimplExpr.eval, hva, hvb]

theorem lookupAll_ok_get (t : ScopeTree) (c : Nat) :
    ∀ refs env, lookupAll t c refs = .ok env →
      ∀ v ∈ refs, env.get v = t.lookup_variable_in_scope c v ∧
        (t.lookup_variable_in_scope c v).isSome := by
  intro refs
  induction refs with
  | nil => intro env h v hv; simp at hv
  | cons r rest ih =>
    intro env h v hv
    rw [lookupAll] at h
    cases hr : t.lookup_variable_in_scope c r with
    | none => rw [hr] at h; exact absurd h (by simp)
    | some value =>
      rw [hr] at h
      cases hrest : lookupAll t c rest with
      | error msg => rw [hrest] at h; exact absurd h (by simp)
      | ok env0 =>
        rw [hrest] at h
        simp only [Except.ok.injEq] at h
        subst h
        rcases List.mem_cons.mp hv with rfl | hv'
        · rw [get_insert_self, hr]; simp
        · by_cases hvr : v = r
          · subst hvr; rw [get_insert_self, hr]; simp
          · rw [get_insert_ne env0 r value v hvr]
            exact ih env0 hrest v hv'

theorem lookupAll_ok_of_resolvable (t : ScopeTree) (c : Nat) :
    ∀ refs, (∀ v ∈ refs, (t.lookup_variable_in_scope c v).isSome) →
      ∃ env, lookupAll t c refs = .ok env := by
  intro refs
  induction refs with
  | nil => intro h; exact ⟨[], rfl⟩
  | cons r rest ih =>
    intro h
    obtain ⟨value, hr⟩ := Option.isSome_iff_exists.mp (h r (by simp))
    obtain ⟨env0, hrest⟩ := ih (fun v hv => h v (List.mem_cons_of_mem r hv))
    refine ⟨env0.insert r value, ?_⟩
    rw [lookupAll, hr, hrest]

theorem lookupAll_err_of_missing (t : ScopeTree) (c : Nat) :
    ∀ refs, (∃ v ∈ refs, t.lookup_variable_in_scope c v = none) →
      ∃ v ∈ refs, t.lookup_variable_in_scope c v = none ∧
        lookupAll t c refs = .error s!"Could not find variable {v} in scope" := by
  intro refs
  induction refs with
  | nil => rintro ⟨v, hv, -⟩; simp at hv
  | cons r rest ih =>
    rintro ⟨v, hv, hnone⟩
    cases hr : t.lookup_variable_in_scope c r with
    | none =>
      refine ⟨r, by simp, hr, ?_⟩
      rw [lookupAll, hr]
    | some value =>
      have hv' : v ∈ rest := by
        rcases List.mem_cons.mp hv with rfl | hv'
        · rw [hr] at hnone; exact absurd hnone (by simp)
        · exact hv'
      obtain ⟨w, hw, hwnone, hwerr⟩ := ih ⟨v, hv', hnone⟩
      refine ⟨w, List.mem_cons_of_mem r hw, hwnone, ?_⟩
      rw [lookupAll, hr, hwerr]

/-- When every reference of every attribute resolves from the calling scope,
the validation phase succeeds (and in particular `eval(..).unwrap()` cannot
panic: the evaluation environment contains exactly the resolved references). -/
theorem phase1_ok (t : ScopeTree) (c : Nat) :
    ∀ attrs : List (String × SimplExpr),
      (∀ p ∈ attrs, ∀ v ∈ p.2.collect_var_refs, (t.lookup_variable_in_scope c v).isSome) →
      ∀ acc, ∃ env, registerPhase1 t c attrs acc = .ok env := by
  intro attrs
  induction attrs with
  | nil => intro h acc; exact ⟨acc, rfl⟩
  | cons p rest ih =>
    intro h acc
    obtain ⟨ρ, hρ⟩ := lookupAll_ok_of_resolvable t c p.2.collect_var_refs
      (fun v hv => (h p (by simp) v hv))
    have heval : (p.2.eval ρ).isSome := by
      refine eval_isSome_of_refs p.2 ρ (fun v hv => ?_)
      obtain ⟨hget, hsome⟩ := lookupAll_ok_get t c p.2.collect_var_refs ρ hρ v hv
      rw [hget]
      exact hsome
    obtain ⟨val, hval⟩ := Option.isSome_iff_exists.mp heval
    obtain ⟨env, henv⟩ := ih (fun q hq => h q (List.mem_cons_of_mem p hq)) (acc.insert p.1 val)
    refine ⟨env, ?_⟩
    simp only [registerPhase1, hρ, hval]
    exact henv

/-- When some attribute references an unresolvable variable, the validation
phase fails with the source's `UnresolvedVariable`-style error naming that
variable (and never with the panic: attributes whose references all resolve
evaluate successfully). -/
theorem phase1_err (t : ScopeTree) (c : Nat) :
    ∀ attrs : List (String × SimplExpr),
      (∃ p ∈ attrs, ∃ v ∈ p.2.collect_var_refs, t.lookup_variable_in_scope c v = none) →
      ∀ acc, ∃ v, t.lookup_variable_in_scope c v = none ∧
        (∃ p ∈ attrs, v ∈ p.2.collect_var_refs) ∧
        registerPhase1 t c attrs acc =
          .error (.unresolved s!"Could not find variable {v} in scope") := by
  intro attrs
  induction attrs with
  | nil => rintro ⟨p, hp, -⟩ acc; simp at hp
  | cons q rest ih =>
    rintro ⟨p, hp, v, hv, hnone⟩ acc
    cases hρ : lookupAll t c q.2.collect_var_refs with
    | error msg =>
      have hmiss : ∃ w ∈ q.2.collect_var_refs, t.lookup_variable_in_scope c w = none := by
        by_contra hcon
        push_neg at hcon
        obtain ⟨ρ, hρ'⟩ := lookupAll_ok_of_resolvable t c q.2.collect_var_refs
          (fun w hw => Option.ne_none_iff_isSome.mp (hcon w hw))
        rw [hρ] at hρ'
        exact absurd hρ' (by simp)
      obtain ⟨w, hw, hwnone, hwerr⟩ := lookupAll_err_of_missing t c q.2.collect_var_refs hmiss
      refine ⟨w, hwnone, ⟨q, by simp, hw⟩, ?_⟩
      simp only [registerPhase1, hwerr]
    | ok ρ =>
      have heval : (q.2.eval ρ).isSome := by
        refine eval_isSome_of_refs q.2 ρ (fun w hw => ?_)
        obtain ⟨hget, hsome⟩ := lookupAll_ok_get t c q.2.collect_var_refs ρ hρ w hw
        rw [hget]
        exact hsome
      obtain ⟨val, hval⟩ := Option.isSome_iff_exists.mp heval
      have hp' : p ∈ rest := by
        rcases List.mem_cons.mp hp with rfl | hp'
        · obtain ⟨-, hsome⟩ := lookupAll_ok_get t c p.2.collect_var_refs ρ hρ v hv
          rw [hnone] at hsome
          exact absurd hsome (by simp)
        · exact hp'
      obtain ⟨w, hwnone, hwmem, hwerr⟩ := ih ⟨p, hp', v, hv, hnone⟩ (acc.insert q.1 val)
      refine ⟨w, hwnone, ?_, ?_⟩
      · obtain ⟨r, hr, hrw⟩ := hwmem
        exact ⟨r, List.mem_cons_of_mem q hr, hrw⟩
      · simp only [registerPhase1, hρ, hval]
        exact hwerr

/-- The validation phase only prepends attribute keys onto the accumulator:
keys not named by any attribute keep their accumulator value. -/
theorem phase1_preserve (t : ScopeTree) (c : Nat) :
    ∀ attrs acc env, registerPhase1 t c attrs acc = .ok env →
      ∀ w, w ∉ attrs.map Prod.fst → env.get w = acc.get w := by
  intro attrs
  induction attrs with
  | nil =>
    intro acc env h w hw
    rw [registerPhase1] at h
    simp only [Except.ok.injEq] at h
    subst h
    rfl
  | cons q rest ih =>
    intro acc env h w hw
    cases hρ : lookupAll t c q.2.collect_var_refs with
    | error msg => simp only [registerPhase1, hρ] at h; exact absurd h (by simp)
    | ok ρ =>
      cases hval : q.2.eval ρ with
      | none => simp only [registerPhase1, hρ, hval] at h; exact absurd h (by simp)
      | some val =>
        simp only [registerPhase1, hρ, hval] at h
        simp only [List.map_cons, List.mem_cons] at hw
        push_neg at hw
        rw [ih (acc.insert q.1 val) env h w hw.2]
        exact get_insert_ne acc q.1 val w hw.1

/-- In the environment produced by a successful validation phase over
attributes with pairwise distinct names, each attribute's name is bound to
the value its expression evaluates to against its resolved references. -/
theorem phase1_get (t : ScopeTree) (c : Nat) :
    ∀ attrs acc env, (attrs.map Prod.fst).Nodup →
      registerPhase1 t c attrs acc = .ok env →
      ∀ a e, (a, e) ∈ attrs →
        ∃ ρ, lookupAll t c e.collect_var_refs = .ok ρ ∧ env.get a = e.eval ρ := by
  intro attrs
  induction attrs with
  | nil => intro acc env hnd h a e hmem; simp at hmem
  | cons q rest ih =>
    intro acc env hnd h a e hmem
    cases hρ : lookupAll t c q.2.collect_var_refs with
    | error msg => simp only [registerPhase1, hρ] at h; exact absurd h (by simp)
    | ok ρ =>
      cases hval : q.2.eval ρ with
      | none => simp only [registerPhase1, hρ, hval] at h; exact absurd h (by simp)
      | some val =>
        simp only [registerPhase1, hρ, hval] at h
        rcases List.mem_cons.mp hmem with heq | hmem'
        · have ha : a = q.1 := by rw [← heq]
          have he : e = q.2 := by rw [← heq]
          subst ha
          subst he
          refine ⟨ρ, hρ, ?_⟩
          have hnotin : q.1 ∉ rest.map Prod.fst := by
            simp only [List.map_cons, List.nodup_cons] at hnd
            exact hnd.1
          rw [phase1_preserve t c rest (acc.insert q.1 val) env h q.1 hnotin,
            get_insert_self, hval]
        · refine ih (acc.insert q.1 val) env ?_ h a e hmem'
          simp only [List.map_cons, List.nodup_cons] at hnd
          exact hnd.2

/-- C1: for every graph state, calling scope, and attribute map, if any
attribute expression references a variable that is not resolvable by upward
lookup from the calling scope, then `register_new_scope` returns an error and
the graph is exactly as before the call — in particular node count, edge
count, and the result of every lookup are unchanged. -/
theorem register_new_scope_unresolved_no_mutation (t : ScopeTree) (ht : Reachable t)
    (parent_scope : Option Nat) (calling_scope : Nat)
    (attributes : List (String × SimplExpr))
    (h : ∃ p ∈ attributes, ∃ v ∈ p.2.collect_var_refs,
      t.lookup_variable_in_scope calling_scope v = none) :
    (t.register_new_scope parent_scope calling_scope attributes).1 = t ∧
    (∃ msg, (t.register_new_scope parent_scope calling_scope attributes).2 =
      .error (.unresolved msg)) ∧
    (t.register_new_scope parent_scope calling_scope attributes).1.nodes.length =
      t.nodes.length ∧
    (t.register_new_scope parent_scope calling_scope attributes).1.edges.length =
      t.edges.length ∧
    (∀ i v, (t.register_new_scope parent_scope calling_scope
      attributes).1.lookup_variable_in_scope i v = t.lookup_variable_in_scope i v) := by
  obtain ⟨v, hvnone, hvmem, herr⟩ := phase1_err t calling_scope attributes h []
  rw [register_new_scope_err t parent_scope calling_scope attributes _ herr]
  exact ⟨rfl, ⟨_, rfl⟩, rfl, rfl, fun i v => rfl⟩

theorem register_new_scope_unresolved_no_mutation_witness :
    (∃ p ∈ [("x", SimplExpr.varRef "missing")], ∃ v ∈ p.2.collect_var_refs,
      (ScopeTree.from_global_vars [("g", "1")]).lookup_variable_in_scope 0 v = none) ∧
    ((ScopeTree.from_global_vars [("g", "1")]).register_new_scope (some 0) 0
      [("x", SimplExpr.varRef "missing")]).1 = ScopeTree.from_global_vars [("g", "1")] :=
  ⟨by decide,
   (register_new_scope_unresolved_no_mutation (ScopeTree.from_global_vars [("g", "1")])
     (Reachable.root [("g", "1")]) (some 0) 0 [("x", SimplExpr.varRef "missing")]
     (by decide)).1⟩

/-- C9: whenever every collected variable reference of every attribute
resolves by upward lookup from the calling scope, the whole call succeeds; in
particular the `.unwrap()` on the evaluation result in the validate/evaluate
phase never panics (the assembled environment contains exactly the resolved
references, and evaluation only fails on a missing reference). -/
theorem register_new_scope_eval_no_panic (t : ScopeTree) (ht : Reachable t)
    (parent_scope : Option Nat) (calling_scope : Nat)
    (attributes : List (String × SimplExpr))
    (h : ∀ p ∈ attributes, ∀ v ∈ p.2.collect_var_refs,
      (t.lookup_variable_in_scope calling_scope v).isSome) :
    (t.register_new_scope parent_scope calling_scope attributes).2 =
      .ok t.nodes.length ∧
    (t.register_new_scope parent_scope calling_scope attributes).2 ≠
      .error RegErr.panicked := by
  obtain ⟨env, henv⟩ := phase1_ok t calling_scope attributes h []
  rw [register_new_scope_ok t parent_scope calling_scope attributes env henv]
  exact ⟨rfl, by simp⟩

theorem register_new_scope_eval_no_panic_witness :
    (∀ p ∈ [("a", SimplExpr.concat (SimplExpr.varRef "g") (SimplExpr.lit "!"))],
      ∀ v ∈ p.2.collect_var_refs,
      ((ScopeTree.from_global_vars [("g", "1")]).lookup_variable_in_scope 0 v).isSome) ∧
    ((ScopeTree.from_global_vars [("g", "1")]).register_new_scope (some 0) 0
      [("a", SimplExpr.concat (SimplExpr.varRef "g") (SimplExpr.lit "!"))]).2 = .ok 1 :=
  ⟨by decide,
   (register_new_scope_eval_no_panic (ScopeTree.from_global_vars [("g", "1")])
     (Reachable.root [("g", "1")]) (some 0) 0
     [("a", SimplExpr.concat (SimplExpr.varRef "g") (SimplExpr.lit "!"))] (by decide)).1⟩

/-- C7 counterexample: a failing `register_new_scope` call surfaces the error
message "Could not find variable missing_var in scope" — it names the
variable, but contains neither the attribute name (`myattr` is not an infix of
the message) nor any widget name: no widget identity is even passed to
`register_new_scope`. -/
theorem register_error_omits_widget_and_attribute :
    ((ScopeTree.from_global_vars []).register_new_scope (some 0) 0
      [("myattr", SimplExpr.varRef "missing_var")]).2 =
      .error (.unresolved "Could not find variable missing_var in scope") ∧
    ¬ List.IsInfix "myattr".toList
      "Could not find variable missing_var in scope".toList := by
  exact ⟨rfl, by decide⟩

/-- C7 amended: when `register_new_scope` fails because a referenced variable
is not visible from the calling scope, the surfaced error names the offending
variable (message `Could not find variable {v} in scope`); the widget and the
attribute are not part of the error. -/
theorem register_error_names_offending_variable (t : ScopeTree) (ht : Reachable t)
    (parent_scope : Option Nat) (calling_scope : Nat)
    (attributes : List (String × SimplExpr))
    (h : ∃ p ∈ attributes, ∃ v ∈ p.2.collect_var_refs,
      t.lookup_variable_in_scope calling_scope v = none) :
    ∃ v, t.lookup_variable_in_scope calling_scope v = none ∧
      (∃ p ∈ attributes, v ∈ p.2.collect_var_refs) ∧
      (t.register_new_scope parent_scope calling_scope attributes).2 =
        .error (.unresolved s!"Could not find variable {v} in scope") := by
  obtain ⟨v, hvnone, hvmem, herr⟩ := phase1_err t calling_scope attributes h []
  refine ⟨v, hvnone, hvmem, ?_⟩
  rw [register_new_scope_err t parent_scope calling_scope attributes _ herr]

theorem register_error_names_offending_variable_witness :
    (∃ p ∈ [("a", SimplExpr.varRef "nope")], ∃ v ∈ p.2.collect_var_refs,
      (ScopeTree.from_global_vars []).lookup_variable_in_scope 0 v = none) ∧
    (∃ v, (ScopeTree.from_global_vars []).lookup_variable_in_scope 0 v = none ∧
      (∃ p ∈ [("a", SimplExpr.varRef "nope")], v ∈ p.2.collect_var_refs) ∧
      ((ScopeTree.from_global_vars []).register_new_scope none 0
        [("a", SimplExpr.varRef "nope")]).2 =
        .error (.unresolved s!"Could not find variable {v} in scope")) :=
  ⟨by decide,
   register_error_names_offending_variable (ScopeTree.from_global_vars [])
     (Reachable.root []) none 0 [("a", SimplExpr.varRef "nope")] (by decide)⟩

/-- C4 counterexample: `register_new_scope` accepts `parent_scope = None`, and
such a call creates a non-root scope with zero outgoing `Inherits` edges —
refuting "every non-root scope has exactly one outgoing Inherits edge" on a
state reachable by `from_global_vars` followed by one `register_new_scope`. -/
theorem nonroot_scope_with_no_inherits_edge :
    (((ScopeTree.from_global_vars [("g", "0")]).register_new_scope none 0 []).1.nodes.length
      = 2) ∧
    ((ScopeTree.from_global_vars [("g", "0")]).register_new_scope none 0 []).1.root_index
      = 0 ∧
    outgoingInheritsCount
      (((ScopeTree.from_global_vars [("g", "0")]).register_new_scope none 0 []).1) 1 = 0 := by
  exact ⟨by decide, by decide, by decide⟩

/-- C4 amended: in every reachable graph state, every scope has at most one
outgoing `Inherits` edge and the root scope has none; a scope registered with
`parent_scope = None` is non-root yet also has none, so "exactly one for every
non-root scope" holds only for scopes registered with a parent. -/
theorem reachable_inherits_at_most_one (t : ScopeTree) (ht : Reachable t) :
    (∀ i, outgoingInheritsCount t i ≤ 1) ∧
    outgoingInheritsCount t t.root_index = 0 := by
  have inv := reachable_treeInv t ht
  refine ⟨inv.inherits_unique, ?_⟩
  rw [inv.root_zero]
  exact inv.root_no_parent

theorem reachable_inherits_at_most_one_witness :
    outgoingInheritsCount (ScopeTree.from_global_vars [("g", "0")])
      (ScopeTree.from_global_vars [("g", "0")]).root_index = 0 :=
  (reachable_inherits_at_most_one (ScopeTree.from_global_vars [("g", "0")])
    (Reachable.root [("g", "0")])).2

/-- C8: in every reachable graph state — i.e. after any sequence of
`from_global_vars`, `add_scope`, `register_new_scope` calls has returned —
every scope stored in the graph has its `node_index` field equal to the graph
index under which it is stored; the placeholder identity a scope is
constructed with is patched before the call returns, so no scope observable
through the public interface carries an invalid identity. -/
theorem scope_node_index_valid (t : ScopeTree) (ht : Reachable t) :
    ∀ i s, t.value_at i = some s → s.node_index = i := by
  intro i s hs
  have inv := reachable_treeInv t ht
  rw [ScopeTree.value_at] at hs
  rw [List.getElem?_eq_some_iff] at hs
  obtain ⟨hlt, heq⟩ := hs
  rw [← heq]
  exact inv.node_index_eq i hlt

theorem scope_node_index_valid_witness :
    ((((ScopeTree.from_global_vars [("g", "0")]).register_new_scope (some 0) 0 []).1.value_at 1
      = some { data := [], listeners := [], node_index := 1 })) ∧
    (∀ s, (((ScopeTree.from_global_vars [("g", "0")]).register_new_scope
        (some 0) 0 []).1.value_at 1 = some s) → s.node_index = 1) :=
  ⟨by decide,
   fun s hs => scope_node_index_valid
     (((ScopeTree.from_global_vars [("g", "0")]).register_new_scope (some 0) 0 []).1)
     (Reachable.register (ScopeTree.from_global_vars [("g", "0")]) (some 0) 0 []
       (Reachable.root [("g", "0")]) (by intro p hp; cases hp; decide) (by decide)) 1 s hs⟩

theorem parentChainAux_length_le (t : ScopeTree) (inv : TreeInv t) :
    ∀ idx fuel, (parentChainAux t idx fuel).length ≤ idx + 1 := by
  intro idx
  induction idx using Nat.strong_induction_on with
  | _ idx ih =>
    intro fuel
    cases fuel with
    | zero => rw [parentChainAux_zero]; simp
    | succ f0 =>
      cases hp : t.parent_scope_of idx with
      | none => rw [parentChainAux_succ_none t idx f0 hp]; simp
      | some parent =>
        obtain ⟨hlt, -⟩ := parent_lt t inv idx parent hp
        rw [parentChainAux_succ_some t idx f0 parent hp]
        have := ih parent hlt f0
        simp only [List.length_cons]
        omega

/-- C5 counterexample: a scope registered with `parent_scope = None` is
non-root, and the `parent_scope_of` walk from it terminates immediately at
that scope itself — not at the root — refuting "terminates at the root" on a
state reachable by `from_global_vars` followed by one `register_new_scope`. -/
theorem parent_walk_ends_off_root :
    ((((ScopeTree.from_global_vars []).register_new_scope none 0
      [("a", SimplExpr.lit "x")]).1.ancestorChain 1) = [1]) ∧
    (((ScopeTree.from_global_vars []).register_new_scope none 0
      [("a", SimplExpr.lit "x")]).1.root_index = 0) :=
  ⟨by decide, by decide⟩

/-- C5 amended: for every scope S in a reachable graph state, repeatedly
applying `parent_scope_of` starting at S terminates — at the root when every
scope on the way was registered with a parent, and in general at a scope with
no outgoing `Inherits` edge — within `depth(S) ≤ S` steps, never visiting the
same scope twice (the `Inherits` relation is acyclic); consequently every
upward lookup terminates, and any recursion bound above S (in particular the
`nodes.length` bound used by `find_available_scope_where`) computes its
result. -/
theorem parent_walk_terminates (t : ScopeTree) (ht : Reachable t) (idx : Nat)
    (h : idx < t.nodes.length) :
    (t.ancestorChain idx).Nodup ∧
    (t.ancestorChain idx).head? = some idx ∧
    (∃ l, (t.ancestorChain idx).getLast? = some l ∧ t.parent_scope_of l = none) ∧
    (t.ancestorChain idx).length ≤ idx + 1 ∧
    (∀ f fuel, idx < fuel →
      findAvailableScopeAux t f idx fuel = t.find_available_scope_where idx f) := by
  have inv := reachable_treeInv t ht
  refine ⟨parentChainAux_nodup t inv idx t.nodes.length,
    parentChainAux_head? t idx t.nodes.length,
    parentChainAux_last_no_parent t inv idx t.nodes.length (by omega),
    parentChainAux_length_le t inv idx t.nodes.length,
    fun f fuel hfuel => findAux_fuel_stable t inv f idx fuel t.nodes.length hfuel h⟩

theorem parent_walk_terminates_witness :
    1 < (((ScopeTree.from_global_vars [("g", "1")]).register_new_scope (some 0) 0
      []).1.nodes.length) ∧
    ((((ScopeTree.from_global_vars [("g", "1")]).register_new_scope (some 0) 0
      []).1.ancestorChain 1).Nodup) :=
  ⟨by decide,
   (parent_walk_terminates
     (((ScopeTree.from_global_vars [("g", "1")]).register_new_scope (some 0) 0 []).1)
     (Reachable.register (ScopeTree.from_global_vars [("g", "1")]) (some 0) 0 []
       (Reachable.root [("g", "1")]) (by intro p hp; cases hp; decide) (by decide))
     1 (by decide)).1⟩

/-- C2: `lookup(S, v)` scans the inheritance chain of S — S itself first, so a
scope's own binding shadows any ancestor's — and returns the value bound in
the nearest chain scope binding v; it returns none iff no scope on the chain
binds v. -/
theorem lookup_nearest_ancestor (t : ScopeTree) (ht : Reachable t) (idx : Nat)
    (v : String) :
    (t.lookup_variable_in_scope idx v =
      ((t.ancestorChain idx).find? (scopeSat t (fun s => s.data.containsKey v))).bind
        (fun i => (t.value_at i).bind (fun s => s.data.get v))) ∧
    (t.lookup_variable_in_scope idx v = none ↔
      ∀ i ∈ t.ancestorChain idx, ∀ s, t.value_at i = some s → s.data.get v = none) := by
  have inv := reachable_treeInv t ht
  have hfind : t.find_scope_with_variable idx v =
      (t.ancestorChain idx).find? (scopeSat t (fun s => s.data.containsKey v)) := by
    rw [ScopeTree.find_scope_with_variable, ScopeTree.find_available_scope_where]
    exact findAux_eq_chain_find t inv _ idx t.nodes.length
  constructor
  · rw [ScopeTree.lookup_variable_in_scope, hfind]
  · constructor
    · intro hnone i hi s hs
      cases hget : s.data.get v with
      | none => rfl
      | some value =>
        exfalso
        have hsat : scopeSat t (fun s => s.data.containsKey v) i = true := by
          simp [scopeSat, hs, Env.containsKey, hget]
        have hex : ((t.ancestorChain idx).find?
            (scopeSat t (fun s => s.data.containsKey v))).isSome := by
          rw [List.find?_isSome]
          exact ⟨i, hi, hsat⟩
        obtain ⟨j, hj⟩ := Option.isSome_iff_exists.mp hex
        have hjsat := List.find?_some hj
        rw [ScopeTree.lookup_variable_in_scope, hfind, hj] at hnone
        simp only [Option.some_bind] at hnone
        cases hvj : t.value_at j with
        | none => rw [scopeSat, hvj] at hjsat; exact absurd hjsat (by simp)
        | some sj =>
          rw [scopeSat, hvj] at hjsat
          simp only [Env.containsKey] at hjsat
          rw [hvj] at hnone
          simp only [Option.some_bind] at hnone
          rw [hnone] at hjsat
          exact absurd hjsat (by simp)
    · intro hall
      have hfnone : (t.ancestorChain idx).find?
          (scopeSat t (fun s => s.data.containsKey v)) = none := by
        rw [List.find?_eq_none]
        intro i hi
        cases hvi : t.value_at i with
        | none => simp [scopeSat, hvi]
        | some s => simp [scopeSat, hvi, Env.containsKey, hall i hi s hvi]
      rw [ScopeTree.lookup_variable_in_scope, hfind, hfnone]
      rfl

theorem lookup_nearest_ancestor_witness :
    (((ScopeTree.from_global_vars [("g", "1")]).register_new_scope (some 0) 0
      [("a", SimplExpr.lit "q")]).1.lookup_variable_in_scope 1 "g" =
      (((((ScopeTree.from_global_vars [("g", "1")]).register_new_scope (some 0) 0
        [("a", SimplExpr.lit "q")]).1.ancestorChain 1).find?
          (scopeSat (((ScopeTree.from_global_vars [("g", "1")]).register_new_scope
            (some 0) 0 [("a", SimplExpr.lit "q")]).1)
            (fun s => s.data.containsKey "g"))).bind
        (fun i => ((((ScopeTree.from_global_vars [("g", "1")]).register_new_scope
          (some 0) 0 [("a", SimplExpr.lit "q")]).1.value_at i)).bind
          (fun s => s.data.get "g")))) :=
  (lookup_nearest_ancestor
    (((ScopeTree.from_global_vars [("g", "1")]).register_new_scope (some 0) 0
      [("a", SimplExpr.lit "q")]).1)
    (Reachable.register (ScopeTree.from_global_vars [("g", "1")]) (some 0) 0
      [("a", SimplExpr.lit "q")] (Reachable.root [("g", "1")])
      (by intro p hp; cases hp; decide) (by decide))
    1 "g").1

/-- C3: a successful `register_new_scope` with N attribute expressions (on a
reachable state, with an in-range calling scope and pairwise distinct
attribute names, and with every reference resolvable) appends exactly one new
scope and adds exactly N `ProvidesAttribute` edges — each from the calling
scope to the new scope and each carrying the attribute's original, unevaluated
expression — plus exactly one `Inherits` edge from the new scope to the parent
when a parent was given; the new scope's local bindings map each attribute's
name to its evaluated value. -/
theorem register_new_scope_commit (t : ScopeTree) (ht : Reachable t)
    (parent_scope : Option Nat) (calling_scope : Nat)
    (attributes : List (String × SimplExpr))
    (hc : calling_scope < t.nodes.length)
    (hnodup : (attributes.map Prod.fst).Nodup)
    (hres : ∀ p ∈ attributes, ∀ v ∈ p.2.collect_var_refs,
      (t.lookup_variable_in_scope calling_scope v).isSome) :
    ∃ env,
      t.register_new_scope parent_scope calling_scope attributes =
        ({ nodes := t.nodes ++ [{ data := env, listeners := [], node_index := t.nodes.length }],
           edges := t.edges ++ inhEdges parent_scope t.nodes.length ++
             attributes.map (fun p => (calling_scope, t.nodes.length,
               ScopeTreeEdge.ProvidesAttribute p.1 p.2)),
           root_index := t.root_index }, .ok t.nodes.length) ∧
      providesCount (t.register_new_scope parent_scope calling_scope attributes).1
        calling_scope t.nodes.length = attributes.length ∧
      (∀ q ∈ attributes, (calling_scope, t.nodes.length,
        ScopeTreeEdge.ProvidesAttribute q.1 q.2) ∈
          (t.register_new_scope parent_scope calling_scope attributes).1.edges) ∧
      outgoingInheritsCount (t.register_new_scope parent_scope calling_scope attributes).1
        t.nodes.length = (match parent_scope with | some _ => 1 | none => 0) ∧
      (∀ p, parent_scope = some p → (t.nodes.length, p, ScopeTreeEdge.Inherits []) ∈
        (t.register_new_scope parent_scope calling_scope attributes).1.edges) ∧
      (∀ a e, (a, e) ∈ attributes → ∃ ρ val,
        lookupAll t calling_scope e.collect_var_refs = .ok ρ ∧
        e.eval ρ = some val ∧
        ((t.register_new_scope parent_scope calling_scope attributes).1.value_at
          t.nodes.length).bind (fun s => s.data.get a) = some val) := by
  have inv := reachable_treeInv t ht
  obtain ⟨env, henv⟩ := phase1_ok t calling_scope attributes hres []
  have hshape := register_new_scope_ok t parent_scope calling_scope attributes env henv
  refine ⟨env, hshape, ?_, ?_, ?_, ?_, ?_⟩
  · rw [providesCount, hshape]
    have h1 : t.edges.filter (fun e =>
        e.1 = calling_scope && e.2.1 = t.nodes.length && !e.2.2.is_inherits_relation) = [] := by
      rw [List.filter_eq_nil_iff]
      intro e he
      have hlt := inv.edge_dst_lt e he
      simp only [Bool.and_eq_true, decide_eq_true_eq, Bool.not_eq_true']
      rintro ⟨⟨-, h2⟩, -⟩
      omega
    have h2 : (inhEdges parent_scope t.nodes.length).filter (fun e =>
        e.1 = calling_scope && e.2.1 = t.nodes.length && !e.2.2.is_inherits_relation) = [] := by
      cases parent_scope <;>
        simp [inhEdges, List.filter, ScopeTreeEdge.is_inherits_relation]
    have h3 : (attributes.map (fun p => (calling_scope, t.nodes.length,
        ScopeTreeEdge.ProvidesAttribute p.1 p.2))).filter (fun e =>
        e.1 = calling_scope && e.2.1 = t.nodes.length && !e.2.2.is_inherits_relation) =
        attributes.map (fun p => (calling_scope, t.nodes.length,
          ScopeTreeEdge.ProvidesAttribute p.1 p.2)) := by
      rw [List.filter_eq_self]
      intro x hx
      obtain ⟨p, -, rfl⟩ := List.mem_map.mp hx
      simp [ScopeTreeEdge.is_inherits_relation]
    simp only [List.filter_append, h1, h2, h3, List.nil_append, List.length_map]
  · intro q hq
    rw [hshape]
    simp only [List.mem_append]
    exact Or.inr (List.mem_map.mpr ⟨q, hq, rfl⟩)
  · rw [outgoingInheritsCount, hshape]
    simp only [inheritsFrom_append]
    rw [inheritsFrom_zero_of_src_lt t.edges _ inv.edge_src_lt,
      inheritsFrom_provides_map]
    cases parent_scope <;>
      simp [inhEdges, inheritsFrom, List.filter, ScopeTreeEdge.is_inherits_relation]
  · intro p hp
    subst hp
    rw [hshape]
    simp only [List.mem_append]
    exact Or.inl (Or.inr (by simp [inhEdges]))
  · intro a e hmem
    obtain ⟨ρ, hρ, hget⟩ := phase1_get t calling_scope attributes [] env hnodup henv a e hmem
    have hevalSome : (e.eval ρ).isSome := by
      refine eval_isSome_of_refs e ρ (fun w hw => ?_)
      obtain ⟨hg, hs⟩ := lookupAll_ok_get t calling_scope e.collect_var_refs ρ hρ w hw
      rw [hg]
      exact hs
    obtain ⟨val, hval⟩ := Option.isSome_iff_exists.mp hevalSome
    refine ⟨ρ, val, hρ, hval, ?_⟩
    rw [hshape]
    show ((t.nodes ++
      [{ data := env, listeners := [], node_index := t.nodes.length }])[t.nodes.length]?).bind
      (fun s => s.data.get a) = some val
    rw [List.getElem?_concat_length]
    simp only [Option.some_bind]
    rw [hget, hval]

theorem register_new_scope_commit_witness :
    (0 < (ScopeTree.from_global_vars [("g", "1")]).nodes.length ∧
      ([("a", SimplExpr.varRef "g"), ("b", SimplExpr.lit "q")].map Prod.fst).Nodup) ∧
    providesCount ((ScopeTree.from_global_vars [("g", "1")]).register_new_scope (some 0) 0
        [("a", SimplExpr.varRef "g"), ("b", SimplExpr.lit "q")]).1 0 1 = 2 :=
  ⟨⟨by decide, by decide⟩,
   (Exists.elim (register_new_scope_commit (ScopeTree.from_global_vars [("g", "1")])
     (Reachable.root [("g", "1")]) (some 0) 0
     [("a", SimplExpr.varRef "g"), ("b", SimplExpr.lit "q")] (by decide) (by decide)
     (by decide))
     (fun env h => h.2.1))⟩

theorem setAt_length (f : Scope → Scope) :
    ∀ (l : List Scope) (n : Nat), (setAt f l n).length = l.length := by
  intro l
  induction l with
  | nil => intro n; rfl
  | cons s rest ih =>
    intro n
    cases n with
    | zero => rfl
    | succ n0 => simp [setAt, ih]

theorem setAt_getElem?_self (f : Scope → Scope) :
    ∀ (l : List Scope) (n : Nat), (setAt f l n)[n]? = (l[n]?).map f := by
  intro l
  induction l with
  | nil => intro n; cases n <;> rfl
  | cons s rest ih =>
    intro n
    cases n with
    | zero => simp [setAt]
    | succ n0 => simpa [setAt] using ih n0

theorem setAt_getElem?_ne (f : Scope → Scope) :
    ∀ (l : List Scope) (n i : Nat), i ≠ n → (setAt f l n)[i]? = l[i]? := by
  intro l
  induction l with
  | nil => intro n i _; rfl
  | cons s rest ih =>
    intro n i hne
    cases n with
    | zero =>
      cases i with
      | zero => exact absurd rfl hne
      | succ i0 => simp [setAt]
    | succ n0 =>
      cases i with
      | zero => simp [setAt]
      | succ i0 => simpa [setAt] using ih n0 i0 (by omega)

theorem findAux_miss_zero (t : ScopeTree) (f : Scope → Bool) (idx : Nat) (c : Scope)
    (hv : t.value_at idx = some c) (hf : f c = false) :
    findAvailableScopeAux t f idx 0 = none := by
  simp [findAvailableScopeAux, hv, hf]

/-- A successful upward walk lands on an existing scope satisfying the
predicate. -/
theorem findAux_sat (t : ScopeTree) (f : Scope → Bool) :
    ∀ fuel idx j, findAvailableScopeAux t f idx fuel = some j →
      ∃ s, t.value_at j = some s ∧ f s = true := by
  intro fuel
  induction fuel with
  | zero =>
    intro idx j h
    cases hv : t.value_at idx with
    | none => rw [findAux_none t f idx 0 hv] at h; exact absurd h (by simp)
    | some c =>
      cases hf : f c with
      | true =>
        rw [findAux_hit t f idx 0 c hv hf] at h
        simp only [Option.some.injEq] at h
        subst h
        exact ⟨c, hv, hf⟩
      | false => rw [findAux_miss_zero t f idx c hv hf] at h; exact absurd h (by simp)
  | succ f0 ih =>
    intro idx j h
    cases hv : t.value_at idx with
    | none => rw [findAux_none t f idx (f0 + 1) hv] at h; exact absurd h (by simp)
    | some c =>
      cases hf : f c with
      | true =>
        rw [findAux_hit t f idx (f0 + 1) c hv hf] at h
        simp only [Option.some.injEq] at h
        subst h
        exact ⟨c, hv, hf⟩
      | false =>
        cases hp : t.parent_scope_of idx with
        | none =>
          rw [findAux_miss_no_parent t f idx (f0 + 1) c hv hf hp] at h
          exact absurd h (by simp)
        | some p =>
          rw [findAux_miss_step t f idx f0 c p hv hf hp] at h
          exact ih p j h

/-- The upward walk only depends on parent edges, scope existence, and the
predicate's value at each scope. -/
theorem findAux_congr (t t' : ScopeTree) (f f' : Scope → Bool)
    (hp : ∀ i, t'.parent_scope_of i = t.parent_scope_of i)
    (hv : ∀ i, t'.value_at i = none ↔ t.value_at i = none)
    (hf : ∀ i s s', t.value_at i = some s → t'.value_at i = some s' → f' s' = f s) :
    ∀ fuel idx, findAvailableScopeAux t' f' idx fuel = findAvailableScopeAux t f idx fuel := by
  intro fuel
  induction fuel with
  | zero =>
    intro idx
    cases hvt : t.value_at idx with
    | none =>
      rw [findAux_none t f idx 0 hvt, findAux_none t' f' idx 0 ((hv idx).mpr hvt)]
    | some s =>
      cases hvt' : t'.value_at idx with
      | none =>
        rw [(hv idx).mp hvt'] at hvt
        exact absurd hvt (by simp)
      | some s' =>
        have hfs := hf idx s s' hvt hvt'
        cases hfc : f s with
        | true =>
          rw [findAux_hit t f idx 0 s hvt hfc,
            findAux_hit t' f' idx 0 s' hvt' (by rw [hfs, hfc])]
        | false =>
          rw [findAux_miss_zero t f idx s hvt hfc,
            findAux_miss_zero t' f' idx s' hvt' (by rw [hfs, hfc])]
  | succ f0 ih =>
    intro idx
    cases hvt : t.value_at idx with
    | none =>
      rw [findAux_none t f idx (f0 + 1) hvt,
        findAux_none t' f' idx (f0 + 1) ((hv idx).mpr hvt)]
    | some s =>
      cases hvt' : t'.value_at idx with
      | none =>
        rw [(hv idx).mp hvt'] at hvt
        exact absurd hvt (by simp)
      | some s' =>
        have hfs := hf idx s s' hvt hvt'
        cases hfc : f s with
        | true =>
          rw [findAux_hit t f idx (f0 + 1) s hvt hfc,
            findAux_hit t' f' idx (f0 + 1) s' hvt' (by rw [hfs, hfc])]
        | false =>
          cases hpt : t.parent_scope_of idx with
          | none =>
            rw [findAux_miss_no_parent t f idx (f0 + 1) s hvt hfc hpt,
              findAux_miss_no_parent t' f' idx (f0 + 1) s' hvt' (by rw [hfs, hfc])
                (by rw [hp idx, hpt])]
          | some p =>
            rw [findAux_miss_step t f idx f0 s p hvt hfc hpt,
              findAux_miss_step t' f' idx f0 s' p hvt' (by rw [hfs, hfc])
                (by rw [hp idx, hpt])]
            exact ih p

theorem foldl_state_invariant {β : Type} (g : ScopeTree → β → ScopeTree)
    (P : ScopeTree → Prop) :
    ∀ l : List β, (∀ b ∈ l, ∀ a, P a → P (g a b)) → ∀ a, P a → P (l.foldl g a) := by
  intro l
  induction l with
  | nil => intro h a ha; exact ha
  | cons b l ih =>
    intro h a ha
    exact ih (fun c hc a' ha' => h c (List.mem_cons_of_mem b hc) a' ha') (g a b)
      (h b (List.mem_cons_self b l) a ha)

theorem writeVarAt_edges (t : ScopeTree) (d : Nat) (n v : String) :
    (writeVarAt t d n v).edges = t.edges := rfl

theorem writeVarAt_length (t : ScopeTree) (d : Nat) (n v : String) :
    (writeVarAt t d n v).nodes.length = t.nodes.length := setAt_length _ t.nodes d

theorem writeVarAt_value_at_ne (t : ScopeTree) (d : Nat) (n v : String) (j : Nat)
    (hj : j ≠ d) : (writeVarAt t d n v).value_at j = t.value_at j :=
  setAt_getElem?_ne _ t.nodes d j hj

theorem writeVarAt_value_at_self (t : ScopeTree) (d : Nat) (n v : String) :
    (writeVarAt t d n v).value_at d = (t.value_at d).map (fun s =>
      { s with data := if (s.data.get n).isSome then s.data.insert n v else s.data }) :=
  setAt_getElem?_self _ t.nodes d

theorem presEq_refl (t : ScopeTree) : presEq t t := ⟨rfl, fun j w => rfl⟩

theorem presEq_trans (t1 t2 t3 : ScopeTree) (h1 : presEq t1 t2) (h2 : presEq t2 t3) :
    presEq t1 t3 :=
  ⟨h1.1.trans h2.1, fun j w => (h1.2 j w).trans (h2.2 j w)⟩

/-- Overwriting an existing binding changes no scope's set of bound names. -/
theorem writeVarAt_presEq (t : ScopeTree) (d : Nat) (n v : String) :
    presEq (writeVarAt t d n v) t := by
  refine ⟨writeVarAt_length t d n v, ?_⟩
  intro j w
  by_cases hj : j = d
  · subst hj
    rw [writeVarAt_value_at_self]
    cases hv : t.value_at j with
    | none => rfl
    | some s =>
      simp only [Option.map_some', Option.some.injEq]
      show Env.containsKey (if (s.data.get n).isSome then s.data.insert n v else s.data) w
        = s.data.containsKey w
      by_cases hc : (s.data.get n).isSome
      · rw [if_pos hc]
        by_cases hw : w = n
        · subst hw
          show ((s.data.insert w v).get w).isSome = (s.data.get w).isSome
          rw [get_insert_self, hc]
          rfl
        · show ((s.data.insert n v).get w).isSome = (s.data.get w).isSome
          rw [get_insert_ne s.data n v w hw]
      · rw [if_neg hc]
  · rw [writeVarAt_value_at_ne t d n v j hj]

/-- Exhaustive description of what a single fan-out step can do: nothing, a
re-derivation write into a `ProvidesAttribute` dependent followed by
recursion, or a write-free recursion through a dependency edge. -/
theorem notifyEdge_cases (recurse : ScopeTree → Nat → String → ScopeTree) (scope : Nat)
    (vn : String) (acc : ScopeTree) (e : Nat × Nat × ScopeTreeEdge) :
    notifyEdge recurse scope vn acc e = acc ∨
    (∃ a val, e.1 = scope ∧ e.2.2.is_inherits_relation = false ∧
      notifyEdge recurse scope vn acc e = recurse (writeVarAt acc e.2.1 a val) e.2.1 a) ∨
    (∃ refs, e.1 = scope ∧ e.2.2 = ScopeTreeEdge.Inherits refs ∧ vn ∈ refs ∧
      notifyEdge recurse scope vn acc e = recurse acc e.2.1 vn) := by
  by_cases hs : e.1 = scope
  · cases he : e.2.2 with
    | ProvidesAttribute a expr =>
      by_cases hm : vn ∈ expr.collect_var_refs
      · cases hl : lookupAll acc scope expr.collect_var_refs with
        | error msg =>
          exact Or.inl (by simp [notifyEdge, hs, he, hm, hl])
        | ok env =>
          cases hv : expr.eval env with
          | none => exact Or.inl (by simp [notifyEdge, hs, he, hm, hl, hv])
          | some value =>
            exact Or.inr (Or.inl ⟨a, value, hs, rfl,
              by simp [notifyEdge, hs, he, hm, hl, hv]⟩)
      · exact Or.inl (by simp [notifyEdge, hs, he, hm])
    | Inherits refs =>
      by_cases hm : vn ∈ refs
      · exact Or.inr (Or.inr ⟨refs, hs, rfl, hm, by simp [notifyEdge, hs, he, hm]⟩)
      · exact Or.inl (by simp [notifyEdge, hs, he, hm])
  · exact Or.inl (by simp [notifyEdge, hs])

/-- Propagation writes bindings only: the edge structure is never changed. -/
theorem notifyChanged_edges :
    ∀ fuel (t : ScopeTree) (scope : Nat) (vn : String),
      (notifyChanged fuel t scope vn).edges = t.edges := by
  intro fuel
  induction fuel with
  | zero => intro t scope vn; rfl
  | succ f ih =>
    intro t scope vn
    rw [notifyChanged]
    refine foldl_state_invariant _ (fun a => a.edges = t.edges) t.edges ?_ t rfl
    intro e he a ha
    rcases notifyEdge_cases (notifyChanged f) scope vn a e with
      h | ⟨y, val, -, -, h⟩ | ⟨refs, -, -, -, h⟩
    · rw [h]; exact ha
    · rw [h, ih, writeVarAt_edges]; exact ha
    · rw [h, ih]; exact ha

/-- Propagation only overwrites existing bindings: the number of scopes and
every scope's set of bound names are preserved. -/
theorem notifyChanged_presEq :
    ∀ fuel (t : ScopeTree) (scope : Nat) (vn : String),
      presEq (notifyChanged fuel t scope vn) t := by
  intro fuel
  induction fuel with
  | zero => intro t scope vn; exact presEq_refl t
  | succ f ih =>
    intro t scope vn
    rw [notifyChanged]
    refine foldl_state_invariant _ (fun a => presEq a t) t.edges ?_ t (presEq_refl t)
    intro e he a ha
    rcases notifyEdge_cases (notifyChanged f) scope vn a e with
      h | ⟨y, val, -, -, h⟩ | ⟨refs, -, -, -, h⟩
    · rw [h]; exact ha
    · rw [h]
      exact presEq_trans _ _ _
        (presEq_trans _ _ _ (ih _ _ _) (writeVarAt_presEq a e.2.1 y val)) ha
    · rw [h]
      exact presEq_trans _ _ _ (ih _ _ _) ha

/-- On a state whose `ProvidesAttribute` edges all ascend to strictly larger
indices and whose dependency `references` sets are empty (every reachable
state), propagation from `scope` never writes at or below `scope`: the changed
scope's own bindings — in particular the fresh value just written there —
survive the fan-out. -/
theorem notifyChanged_preserves_le (E : List (Nat × Nat × ScopeTreeEdge))
    (hasc : ∀ e ∈ E, e.2.2.is_inherits_relation = false → e.1 < e.2.1)
    (hnil : ∀ e ∈ E, ∀ refs, e.2.2 = ScopeTreeEdge.Inherits refs → refs = []) :
    ∀ fuel (t : ScopeTree) (scope : Nat) (vn : String), t.edges = E →
      ∀ j, j ≤ scope → (notifyChanged fuel t scope vn).value_at j = t.value_at j := by
  intro fuel
  induction fuel with
  | zero => intro t scope vn hE j hj; rfl
  | succ f ih =>
    intro t scope vn hE j hj
    rw [notifyChanged, hE]
    refine (foldl_state_invariant (notifyEdge (notifyChanged f) scope vn)
      (fun a => a.edges = E ∧ a.value_at j = t.value_at j) E ?_ t ⟨hE, rfl⟩).2
    intro e he a ha
    rcases notifyEdge_cases (notifyChanged f) scope vn a e with
      h | ⟨y, val, hsrc, hprov, h⟩ | ⟨refs, hsrc, hinh, hmem, h⟩
    · rw [h]; exact ha
    · rw [h]
      have hlt : scope < e.2.1 := by
        have h2 := hasc e he hprov
        rw [hsrc] at h2
        exact h2
      have hE2 : (writeVarAt a e.2.1 y val).edges = E := by
        rw [writeVarAt_edges]; exact ha.1
      constructor
      · rw [notifyChanged_edges]; exact hE2
      · rw [ih (writeVarAt a e.2.1 y val) e.2.1 y hE2 j (by omega),
          writeVarAt_value_at_ne a e.2.1 y val j (by omega)]
        exact ha.2
    · have h2 := hnil e he refs hinh
      rw [h2] at hmem
      exact absurd hmem (by simp)

/-- C6 (`update_value` and its `notifyChanged` fan-out are modelled from spec
§4.3, the source keeping the whole update path only as commented-out code):
for every scope S, variable v visible from S, and value x,
`update_value(S, v, x)` succeeds and mutates the binding in the defining scope
found by upward lookup (not necessarily S itself) — afterwards that scope's
binding of v holds x, propagation having re-derived only dependent bindings —
and a subsequent `lookup(S, v)` returns x. -/
theorem update_value_then_lookup (t : ScopeTree) (ht : Reachable t) (idx : Nat)
    (v x : String) (hvis : (t.lookup_variable_in_scope idx v).isSome) :
    ∃ d, t.find_scope_with_variable idx v = some d ∧
      (update_value t idx v x).2 = .ok () ∧
      (update_value t idx v x).1.edges = t.edges ∧
      (update_value t idx v x).1.nodes.length = t.nodes.length ∧
      ((update_value t idx v x).1.value_at d).bind (fun s => s.data.get v) = some x ∧
      (update_value t idx v x).1.lookup_variable_in_scope idx v = some x := by
  have inv := reachable_treeInv t ht
  have hfindS : (t.find_scope_with_variable idx v).isSome := by
    rw [ScopeTree.lookup_variable_in_scope] at hvis
    cases hf : t.find_scope_with_variable idx v with
    | none => rw [hf] at hvis; exact absurd hvis (by simp)
    | some d => simp
  obtain ⟨d, hd⟩ := Option.isSome_iff_exists.mp hfindS
  have hd' : findAvailableScopeAux t (fun s => s.data.containsKey v) idx
      t.nodes.length = some d := hd
  obtain ⟨sd, hsd, hsdf⟩ := findAux_sat t (fun s => s.data.containsKey v)
    t.nodes.length idx d hd'
  have hsdf' : (sd.data.get v).isSome = true := hsdf
  have hupd1 : (update_value t idx v x).1 =
      notifyChanged t.nodes.length (writeVarAt t d v x) d v := by
    simp only [update_value, hd]
  have hok : (update_value t idx v x).2 = .ok () := by
    simp only [update_value, hd]
  have hw_at_d : (writeVarAt t d v x).value_at d =
      some { sd with data := sd.data.insert v x } := by
    rw [writeVarAt_value_at_self, hsd]
    simp [hsdf']
  have hnE : (update_value t idx v x).1.edges = t.edges := by
    rw [hupd1, notifyChanged_edges, writeVarAt_edges]
  have hpres : presEq (update_value t idx v x).1 t := by
    rw [hupd1]
    exact presEq_trans _ _ _ (notifyChanged_presEq _ _ _ _) (writeVarAt_presEq t d v x)
  have hlen : (update_value t idx v x).1.nodes.length = t.nodes.length := hpres.1
  have hat_d : (update_value t idx v x).1.value_at d =
      some { sd with data := sd.data.insert v x } := by
    rw [hupd1,
      notifyChanged_preserves_le t.edges
        (fun e he hprov => inv.provides_asc e he hprov)
        (fun e he refs hrefs => inv.inherits_refs_nil e he refs hrefs)
        t.nodes.length (writeVarAt t d v x) d v (writeVarAt_edges t d v x) d (le_refl d),
      hw_at_d]
  have hbind : ((update_value t idx v x).1.value_at d).bind
      (fun s => s.data.get v) = some x := by
    rw [hat_d]
    simp only [Option.some_bind]
    exact get_insert_self sd.data v x
  have hpar : ∀ i, (update_value t idx v x).1.parent_scope_of i = t.parent_scope_of i := by
    intro i
    rw [ScopeTree.parent_scope_of, ScopeTree.parent_scope_of, hnE]
  have hcong := findAux_congr t (update_value t idx v x).1
    (fun s => s.data.containsKey v) (fun s => s.data.containsKey v)
    hpar
    (by
      intro i
      have h := hpres.2 i v
      constructor
      · intro h1
        cases h2 : t.value_at i with
        | none => rfl
        | some s => rw [h1, h2] at h; exact absurd h (by simp)
      · intro h1
        cases h2 : (update_value t idx v x).1.value_at i with
        | none => rfl
        | some s => rw [h1, h2] at h; exact absurd h (by simp))
    (by
      intro i s s' hs hs'
      have h := hpres.2 i v
      rw [hs, hs'] at h
      simp only [Option.map_some', Option.some.injEq] at h
      exact h)
  have hlook : (update_value t idx v x).1.lookup_variable_in_scope idx v = some x := by
    rw [ScopeTree.lookup_variable_in_scope, ScopeTree.find_scope_with_variable,
      ScopeTree.find_available_scope_where, hlen, hcong t.nodes.length idx, hd']
    simp only [Option.some_bind]
    exact hbind
  exact ⟨d, hd, hok, hnE, hlen, hbind, hlook⟩

theorem update_value_then_lookup_witness :
    (((ScopeTree.from_global_vars [("g", "1")]).register_new_scope (some 0) 0
      [("a", SimplExpr.varRef "g")]).1.lookup_variable_in_scope 1 "g").isSome ∧
    (update_value (((ScopeTree.from_global_vars [("g", "1")]).register_new_scope (some 0) 0
      [("a", SimplExpr.varRef "g")]).1) 1 "g" "5").1.lookup_variable_in_scope 1 "g" =
      some "5" := by
  refine ⟨by decide, ?_⟩
  obtain ⟨d, -, -, -, -, -, hlast⟩ := update_value_then_lookup
    (((ScopeTree.from_global_vars [("g", "1")]).register_new_scope (some 0) 0
      [("a", SimplExpr.varRef "g")]).1)
    (Reachable.register (ScopeTree.from_global_vars [("g", "1")]) (some 0) 0
      [("a", SimplExpr.varRef "g")] (Reachable.root [("g", "1")])
      (by intro p hp; cases hp; decide) (by decide))
    1 "g" "5" (by decide)
  exact hlast

theorem append_toplevel_nonInclude (files : String → Except FilesError (List Ast))
    (fuel : Nat) (c : Config) (x : TopLevel) (h : x.isInclude = false) :
    Config.append_toplevel files fuel c x = .ok (applyToplevel c x) := by
  cases x with
  | Include inc => exact absurd h (by simp [TopLevel.isInclude])
  | VarDefinition y => simp [Config.append_toplevel, applyToplevel]
  | ScriptVarDefinition y => simp [Config.append_toplevel, applyToplevel]
  | WidgetDefinition y => simp [Config.append_toplevel, applyToplevel]
  | WindowDefinition y => simp [Config.append_toplevel, applyToplevel]

theorem foldlM_append_toplevel_good (files : String → Except FilesError (List Ast))
    (fuel : Nat) :
    ∀ (ts : List TopLevel) (c : Config), (∀ x ∈ ts, x.isInclude = false) →
      (ts.map Ast.ok).foldlM (fun config element => do
        Config.append_toplevel files fuel config (← TopLevel.from_ast element)) c =
        .ok (ts.foldl applyToplevel c) := by
  intro ts
  induction ts with
  | nil => intro c h; rfl
  | cons x ts ih =>
    intro c h
    rw [List.map_cons, List.foldlM_cons]
    have hx : Config.append_toplevel files fuel c x = .ok (applyToplevel c x) :=
      append_toplevel_nonInclude files fuel c x (h x (by simp))
    show (do Config.append_toplevel files fuel c (← TopLevel.from_ast (Ast.ok x))) >>=
      (fun b => (ts.map Ast.ok).foldlM _ b) = _
    rw [show TopLevel.from_ast (Ast.ok x) = .ok x from rfl]
    show (Config.append_toplevel files fuel c x) >>= _ = _
    rw [hx]
    show (ts.map Ast.ok).foldlM _ (applyToplevel c x) = _
    rw [ih (applyToplevel c x) (fun y hy => h y (by simp [hy]))]
    rfl

theorem mapGet_insert_self {α : Type} (m : List (String × α)) (k : String) (v : α) :
    mapGet (mapInsert m k v) k = some v := by
  simp [mapInsert, mapGet]

theorem mapGet_insert_ne {α : Type} (m : List (String × α)) (k : String) (v : α)
    (w : String) (h : w ≠ k) : mapGet (mapInsert m k v) w = mapGet m w := by
  simp [mapInsert, mapGet, List.find?, Ne.symm h]

/-- In a left fold of name-keyed insertions, a lookup returns the value of the
latest matching insertion: later definitions silently replace earlier ones. -/
theorem foldl_apply_mapGet {α : Type} (proj : Config → List (String × α))
    (matchK : TopLevel → Option (String × α))
    (hcompat : ∀ c x, proj (applyToplevel c x) =
      (match matchK x with
        | some kv => mapInsert (proj c) kv.1 kv.2
        | none => proj c)) :
    ∀ (ts : List TopLevel) (c : Config) (name : String),
      mapGet (proj (ts.foldl applyToplevel c)) name =
        ((ts.reverse.findSome? (fun x => (matchK x).bind
          (fun kv => if kv.1 = name then some kv.2 else none))).orElse
          (fun _ => mapGet (proj c) name)) := by
  intro ts
  induction ts with
  | nil => intro c name; rfl
  | cons x ts ih =>
    intro c name
    rw [List.foldl_cons, ih (applyToplevel c x) name, List.reverse_cons]
    have hsingle : ∀ g : TopLevel → Option α,
        (ts.reverse ++ [x]).findSome? g = (ts.reverse.findSome? g).orElse (fun _ => g x) := by
      intro g
      induction ts.reverse with
      | nil => cases hg : g x <;> simp [List.findSome?, Option.orElse, hg]
      | cons y ys ihy =>
        rw [List.cons_append, List.findSome?_cons, List.findSome?_cons]
        cases g y with
        | some b => rfl
        | none => exact ihy
    rw [hsingle]
    cases hA : ts.reverse.findSome? (fun x => (matchK x).bind
        (fun kv => if kv.1 = name then some kv.2 else none)) with
    | some b => rfl
    | none =>
      show mapGet (proj (applyToplevel c x)) name = _
      rw [hcompat]
      cases hm : matchK x with
      | none => rfl
      | some kv =>
        by_cases hk : kv.1 = name
        · subst hk
          show mapGet (mapInsert (proj c) kv.1 kv.2) kv.1 = _
          rw [mapGet_insert_self]
          simp
        · show mapGet (mapInsert (proj c) kv.1 kv.2) name = _
          rw [mapGet_insert_ne (proj c) kv.1 kv.2 name (Ne.symm hk)]
          simp [hk]

/-- C10: `Config::generate` processes top-level elements in order, keying each
widget, window, variable, and script-variable definition by its name; when the
input contains two definitions of the same kind with the same name, the
resulting `Config` contains the later definition, the earlier one being
silently replaced (a lookup by name returns the latest matching definition);
and the first element that fails to parse aborts generation with exactly that
error, the remaining elements being ignored. -/
theorem config_generate_keyed_last_wins (files : String → Except FilesError (List Ast))
    (fuel : Nat) (ts : List TopLevel) (hni : ∀ x ∈ ts, x.isInclude = false)
    (e : String) (rest : List Ast) :
    (Config.generate files fuel (ts.map Ast.ok) =
      .ok (ts.foldl applyToplevel ⟨[], [], [], []⟩)) ∧
    (∀ name, mapGet ((ts.foldl applyToplevel
        (⟨[], [], [], []⟩ : Config)).var_definitions) name =
      ts.reverse.findSome? (fun x => (varKey x).bind
        (fun kv => if kv.1 = name then some kv.2 else none))) ∧
    (∀ name, mapGet ((ts.foldl applyToplevel
        (⟨[], [], [], []⟩ : Config)).script_vars) name =
      ts.reverse.findSome? (fun x => (scriptVarKey x).bind
        (fun kv => if kv.1 = name then some kv.2 else none))) ∧
    (∀ name, mapGet ((ts.foldl applyToplevel
        (⟨[], [], [], []⟩ : Config)).widget_definitions) name =
      ts.reverse.findSome? (fun x => (widgetKey x).bind
        (fun kv => if kv.1 = name then some kv.2 else none))) ∧
    (∀ name, mapGet ((ts.foldl applyToplevel
        (⟨[], [], [], []⟩ : Config)).window_definitions) name =
      ts.reverse.findSome? (fun x => (windowKey x).bind
        (fun kv => if kv.1 = name then some kv.2 else none))) ∧
    Config.generate files fuel (ts.map Ast.ok ++ Ast.bad e :: rest) = .error e := by
  refine ⟨?_, ?_, ?_, ?_, ?_, ?_⟩
  · exact foldlM_append_toplevel_good files fuel ts ⟨[], [], [], []⟩ hni
  · intro name
    rw [foldl_apply_mapGet (fun c => c.var_definitions) varKey
      (by intro c x; cases x <;> rfl) ts ⟨[], [], [], []⟩ name]
    cases h : ts.reverse.findSome? (fun x => (varKey x).bind
      (fun kv => if kv.1 = name then some kv.2 else none)) <;> rfl
  · intro name
    rw [foldl_apply_mapGet (fun c => c.script_vars) scriptVarKey
      (by intro c x; cases x <;> rfl) ts ⟨[], [], [], []⟩ name]
    cases h : ts.reverse.findSome? (fun x => (scriptVarKey x).bind
      (fun kv => if kv.1 = name then some kv.2 else none)) <;> rfl
  · intro name
    rw [foldl_apply_mapGet (fun c => c.widget_definitions) widgetKey
      (by intro c x; cases x <;> rfl) ts ⟨[], [], [], []⟩ name]
    cases h : ts.reverse.findSome? (fun x => (widgetKey x).bind
      (fun kv => if kv.1 = name then some kv.2 else none)) <;> rfl
  · intro name
    rw [foldl_apply_mapGet (fun c => c.window_definitions) windowKey
      (by intro c x; cases x <;> rfl) ts ⟨[], [], [], []⟩ name]
    cases h : ts.reverse.findSome? (fun x => (windowKey x).bind
      (fun kv => if kv.1 = name then some kv.2 else none)) <;> rfl
  · rw [Config.generate, List.foldlM_append,
      foldlM_append_toplevel_good files fuel ts ⟨[], [], [], []⟩ hni]
    rfl

theorem config_generate_keyed_last_wins_witness :
    (∀ x ∈ [TopLevel.VarDefinition ⟨"x", "1"⟩, TopLevel.VarDefinition ⟨"x", "2"⟩],
      x.isInclude = false) ∧
    Config.generate (fun _ => .error .ioError) 0
      ([TopLevel.VarDefinition ⟨"x", "1"⟩, TopLevel.VarDefinition ⟨"x", "2"⟩].map Ast.ok ++
        Ast.bad "boom" :: []) = .error "boom" :=
  ⟨by decide,
   (config_generate_keyed_last_wins (fun _ => .error .ioError) 0
     [TopLevel.VarDefinition ⟨"x", "1"⟩, TopLevel.VarDefinition ⟨"x", "2"⟩]
     (by decide) "boom" []).2.2.2.2.2⟩
